import Mathlib

/-!
Verification of the aggregation core of `versionplot.py`.

The embedding models:
- `get_date` (line 16-25): `datetime.strptime(s, "%Y%m%d").date()`, including
  CPython's field regexes (`%Y` = exactly four digits, `%m` = `1[0-2]|0[1-9]|[1-9]`,
  `%d` = `3[01]|[12]\d|0[1-9]|[1-9]`, tried in that order with backtracking,
  whole-string consumption checked afterwards) and the calendar validation done
  by the `datetime` constructor.
- `semver.match(version, ">=2.12.0")`: parsing per the semver regex
  (`major.minor.patch` with optional `-prerelease` and `+build`) and the
  standard precedence comparison against 2.12.0.
- `load_counts` (line 28-82): the workbook traversal, the zero-initialized
  per-key time series, and the three accumulation passes per daily row.

Python exceptions are modelled by the `Err` type: `formatError` is the
ValueError raised by `strptime`, `lookupError` the KeyError from `oslist[version]`,
`indexError` the IndexError from `where(...)[0][0]` or from `version[0]` on an
empty string (KeyError and IndexError are both subclasses of LookupError),
`parseError` the ValueError raised by `semver.match`, and `sheetNotFound` the
xlrd error for a missing sheet name.
-/

namespace Vplot

inductive Err where
  | formatError : String → Err
  | sheetNotFound : String → Err
  | lookupError : String → Err
  | indexError : Err
  | parseError : String → Err
deriving DecidableEq, Repr

structure Date where
  year : Nat
  month : Nat
  day : Nat
deriving DecidableEq, Repr

/-- Value of a decimal digit character. -/
def charVal (c : Char) : Nat := c.toNat - '0'.toNat

/-- CPython strptime `%Y`: exactly four digits. -/
def matchYear : List Char → Option (Nat × List Char)
  | a :: b :: c :: d :: rest =>
    if a.isDigit ∧ b.isDigit ∧ c.isDigit ∧ d.isDigit then
      some (1000 * charVal a + 100 * charVal b + 10 * charVal c + charVal d, rest)
    else none
  | _ => none

/-- First alternative of `%m`: `1[0-2]`. -/
def altM1 : List Char → Option (Nat × List Char)
  | c1 :: c2 :: rest =>
    if c1 = '1' ∧ c2.isDigit ∧ charVal c2 ≤ 2 then some (10 + charVal c2, rest) else none
  | _ => none

/-- Second alternative of `%m`: `0[1-9]`. -/
def altM2 : List Char → Option (Nat × List Char)
  | c1 :: c2 :: rest =>
    if c1 = '0' ∧ c2.isDigit ∧ 1 ≤ charVal c2 then some (charVal c2, rest) else none
  | _ => none

/-- Third alternative of `%m`: a single digit `[1-9]`. -/
def altM3 : List Char → Option (Nat × List Char)
  | c1 :: rest =>
    if c1.isDigit ∧ 1 ≤ charVal c1 then some (charVal c1, rest) else none
  | _ => none

/-- All matches of the `%m` pattern, in the order the regex engine tries them. -/
def monthAlts (cs : List Char) : List (Nat × List Char) :=
  [altM1 cs, altM2 cs, altM3 cs].filterMap id

/-- First alternative of `%d`: `3[01]`. -/
def altD1 : List Char → Option (Nat × List Char)
  | c1 :: c2 :: rest =>
    if c1 = '3' ∧ c2.isDigit ∧ charVal c2 ≤ 1 then some (30 + charVal c2, rest) else none
  | _ => none

/-- Second alternative of `%d`: `[12]\d`. -/
def altD2 : List Char → Option (Nat × List Char)
  | c1 :: c2 :: rest =>
    if c1.isDigit ∧ 1 ≤ charVal c1 ∧ charVal c1 ≤ 2 ∧ c2.isDigit then
      some (10 * charVal c1 + charVal c2, rest)
    else none
  | _ => none

/-- Third alternative of `%d`: `0[1-9]`. -/
def altD3 : List Char → Option (Nat × List Char)
  | c1 :: c2 :: rest =>
    if c1 = '0' ∧ c2.isDigit ∧ 1 ≤ charVal c2 then some (charVal c2, rest) else none
  | _ => none

/-- Fourth alternative of `%d`: a single digit `[1-9]`. -/
def altD4 : List Char → Option (Nat × List Char)
  | c1 :: rest =>
    if c1.isDigit ∧ 1 ≤ charVal c1 then some (charVal c1, rest) else none
  | _ => none

/-- Fifth alternative of `%d`: a space followed by `[1-9]` (CPython's day
pattern ends in ` [1-9]` so that space-padded days, as produced by ANSI C's
%c, are accepted). -/
def altD5 : List Char → Option (Nat × List Char)
  | c1 :: c2 :: rest =>
    if c1 = ' ' ∧ c2.isDigit ∧ 1 ≤ charVal c2 then some (charVal c2, rest) else none
  | _ => none

/-- All matches of the `%d` pattern, in the order the regex engine tries them. -/
def dayAlts (cs : List Char) : List (Nat × List Char) :=
  [altD1 cs, altD2 cs, altD3 cs, altD4 cs, altD5 cs].filterMap id

/-- Backtracking search over the month alternatives: for each month match (in
order) take the first day match; the regex engine returns the first overall
success. -/
def searchMD : List (Nat × List Char) → Option (Nat × Nat × List Char)
  | [] => none
  | (mo, r) :: rest =>
    match (dayAlts r).head? with
    | some (dy, r') => some (mo, dy, r')
    | none => searchMD rest

/-- The full `%Y%m%d` pattern match, returning year, month, day and the
unconsumed remainder of the input. -/
def regexYMD (cs : List Char) : Option (Nat × Nat × Nat × List Char) :=
  match matchYear cs with
  | none => none
  | some (y, r1) =>
    match searchMD (monthAlts r1) with
    | none => none
    | some (mo, dy, rest) => some (y, mo, dy, rest)

/-- Gregorian leap year rule used by `datetime`. -/
def isLeap (y : Nat) : Bool := (y % 4 = 0 ∧ y % 100 ≠ 0) ∨ y % 400 = 0

/-- Number of days in a month, as validated by the `datetime` constructor. -/
def daysInMonth (y m : Nat) : Nat :=
  if m = 2 then (if isLeap y then 29 else 28)
  else if m = 4 ∨ m = 6 ∨ m = 9 ∨ m = 11 then 30 else 31

/-- Embedding of `get_date` (lines 16-25): `strptime(s, "%Y%m%d")` followed by
construction of the date object. `strptime` raises ValueError (here
`formatError`) when the pattern does not match, when characters remain after
the match, or when the matched fields do not form a valid calendar date. -/
def get_date (s : String) : Except Err Date :=
  match regexYMD s.data with
  | none => .error (.formatError s)
  | some (y, mo, dy, rest) =>
    if rest = [] ∧ 1 ≤ y ∧ y ≤ 9999 ∧ 1 ≤ mo ∧ mo ≤ 12 ∧ 1 ≤ dy ∧ dy ≤ daysInMonth y mo
    then .ok ⟨y, mo, dy⟩ else .error (.formatError s)

/-- Characters allowed in semver prerelease and build identifiers. -/
def isIdentChar (c : Char) : Bool := c.isDigit || c.isAlpha || c == '-'

/-- Split a character list on dots. -/
def splitDots : List Char → List (List Char)
  | [] => [[]]
  | '.' :: rest => [] :: splitDots rest
  | c :: rest =>
    match splitDots rest with
    | [] => [[c]]
    | g :: gs => (c :: g) :: gs

/-- Numeric identifier of the semver regex: `0|[1-9]\d*`. -/
def parseNum : List Char → Option (Nat × List Char)
  | [] => none
  | c :: rest =>
    if c = '0' then some (0, rest)
    else if c.isDigit then
      let ds := rest.takeWhile Char.isDigit
      let rest' := rest.dropWhile Char.isDigit
      some ((c :: ds).foldl (fun a ch => 10 * a + charVal ch) 0, rest')
    else none

/-- Expect a literal dot. -/
def expectDot : List Char → Option (List Char)
  | '.' :: r => some r
  | _ => none

/-- One prerelease identifier of the semver regex,
`0|[1-9]\d*|\d*[a-zA-Z-][0-9a-zA-Z-]*`: nonempty, over `[0-9A-Za-z-]`, and a
purely numeric identifier has no leading zero. -/
def validPreId (g : List Char) : Bool :=
  !g.isEmpty && g.all isIdentChar &&
    (!(g.all Char.isDigit) || decide (g = ['0']) || decide (g.head? ≠ some '0'))

/-- Optional `-prerelease` part: dot-separated identifiers, each matching the
prerelease identifier grammar (numeric ones without leading zeros). Returns
whether a prerelease is present and the remainder. -/
def parsePre : List Char → Option (Bool × List Char)
  | '-' :: r =>
    let chunk := r.takeWhile (fun c => isIdentChar c || c == '.')
    let rest := r.dropWhile (fun c => isIdentChar c || c == '.')
    if chunk ≠ [] ∧ (splitDots chunk).all validPreId then some (true, rest)
    else none
  | r => some (false, r)

/-- Optional `+build` part, same identifier shape as the prerelease. -/
def parseBuild : List Char → Option (List Char)
  | '+' :: r =>
    let chunk := r.takeWhile (fun c => isIdentChar c || c == '.')
    let rest := r.dropWhile (fun c => isIdentChar c || c == '.')
    if chunk ≠ [] ∧ (splitDots chunk).all (fun g => !g.isEmpty) then some rest
    else none
  | r => some r

/-- Embedding of the `semver` library parse: `major.minor.patch` with optional
prerelease and build, anchored at both ends. Returns major, minor, patch and
whether a prerelease is present; `none` is the ValueError raised on malformed
input. -/
def parseSemver (s : String) : Option (Nat × Nat × Nat × Bool) :=
  match parseNum s.data with
  | none => none
  | some (maj, r1) =>
    match expectDot r1 with
    | none => none
    | some r2 =>
      match parseNum r2 with
      | none => none
      | some (minr, r3) =>
        match expectDot r3 with
        | none => none
        | some r4 =>
          match parseNum r4 with
          | none => none
          | some (pat, r5) =>
            match parsePre r5 with
            | none => none
            | some (pre, r6) =>
              match parseBuild r6 with
              | none => none
              | some r7 => if r7 = [] then some (maj, minr, pat, pre) else none

/-- Semver precedence test `v >= 2.12.0`: strictly greater on
major/minor/patch, or equal with no prerelease (a prerelease of 2.12.0
precedes 2.12.0 itself). This is `semver.match(version, MC_VERSION)` with
`MC_VERSION = ">=2.12.0"` (line 13). -/
def semverGE2120 (t : Nat × Nat × Nat × Bool) : Bool :=
  let (mj, mi, pa, pre) := t
  (2 < mj) || (mj = 2 && 12 < mi) || (mj = 2 && mi = 12 && 0 < pa) ||
    (mj = 2 && mi = 12 && pa = 0 && !pre)

/-- One sheet of the workbook: a name and its rows. Only columns 0 and 2 of a
row are ever read by the script, so a row is modelled as that pair (column 0
as the string `xlrd` returns, column 2 already passed through `int(...)`). -/
structure Sheet where
  name : String
  rows : List (String × Int)
deriving DecidableEq, Repr

/-- A workbook: its ordered sheets. -/
structure Workbook where
  sheets : List Sheet
deriving DecidableEq, Repr

/-- Time series: the `(K, 2)` numpy array of date and count columns. -/
abbrev Series := List (Date × Int)

/-- The `oslist` dictionary: insertion-ordered keys, as in a Python dict. -/
abbrev OsMap := List (String × Series)

/-- Lookup in the dictionary (first entry with the key). -/
def dictGet (m : OsMap) (k : String) : Option Series :=
  match m with
  | [] => none
  | p :: rest => if p.1 = k then some p.2 else dictGet rest k

/-- Key membership in the dictionary. -/
def dictMem (m : OsMap) (k : String) : Bool :=
  match m with
  | [] => false
  | p :: rest => p.1 = k || dictMem rest k

/-- Replace the value stored under an existing key (leaves the map unchanged
when the key is absent). -/
def dictSet (m : OsMap) (k : String) (v : Series) : OsMap :=
  match m with
  | [] => []
  | p :: rest => (if p.1 = k then (k, v) else p) :: dictSet rest k v

/-- Python dict assignment: overwrite in place when the key exists, append
otherwise. -/
def dictInsert (m : OsMap) (k : String) (v : Series) : OsMap :=
  if dictMem m k then dictSet m k v else m ++ [(k, v)]

/-- `workbook.sheet_by_name`. -/
def sheet_by_name (wb : Workbook) (n : String) : Option Sheet :=
  wb.sheets.find? (fun sh => sh.name == n)

/-- `workbook.sheet_names()[3:]` (line 39): the date-bearing sheet names. -/
def dateSheetNames (wb : Workbook) : List String :=
  (wb.sheets.map Sheet.name).drop 3

/-- The version catalog read from the `OSVer` sheet: column 0 of every row
after the single header row (lines 51-53). -/
def catalogVersions (sh : Sheet) : List String :=
  (sh.rows.drop 1).map Prod.fst

/-- The four derived keys (line 55), in insertion order. -/
def extra_versions : List String := ["1.x", "2.x", "mc-capable", "non-mc-capable"]

/-- The dates loop of lines 41-46: one `get_date` per date sheet name, failing
on the first name that does not parse. -/
def mapDates : List String → Except Err (List Date)
  | [] => .ok []
  | n :: ns =>
    match get_date n with
    | .error e => .error e
    | .ok d =>
      match mapDates ns with
      | .error e => .error e
      | .ok ds => .ok (d :: ds)

/-- Lines 49-57: insert a copy of the zero-count template for every catalog
version, then for the four derived keys. -/
def initMap (tpl : Series) (cat : List String) : OsMap :=
  (cat ++ extra_versions).foldl (fun m v => dictInsert m v tpl) []

/-- The first row index whose date column equals the given date:
`numpy.where(arr == date)[0][0]`. (The count column holds integers, which
never compare equal to a date object.) -/
def findDateIdx (s : Series) (d : Date) : Option Nat :=
  match s with
  | [] => none
  | p :: rest => if p.1 = d then some 0 else (findDateIdx rest d).map (· + 1)

/-- Position of a date in a plain date list. -/
def dateIdx (ds : List Date) (d : Date) : Option Nat :=
  match ds with
  | [] => none
  | e :: rest => if e = d then some 0 else (dateIdx rest d).map (· + 1)

/-- Add `c` to the count column of row `i`. -/
def incAt (s : Series) (i : Nat) (c : Int) : Series :=
  match s, i with
  | [], _ => []
  | p :: rest, 0 => (p.1, p.2 + c) :: rest
  | p :: rest, Nat.succ j => p :: incAt rest j c

/-- One `oslist[key][dayindex, 1] += count` step: KeyError (`lookupError`)
when the key is absent, IndexError when the date is not found in the series. -/
def bump (m : OsMap) (k : String) (d : Date) (c : Int) : Except Err OsMap :=
  match dictGet m k with
  | none => .error (.lookupError k)
  | some s =>
    match findDateIdx s d with
    | none => .error .indexError
    | some i => .ok (dictSet m k (incAt s i c))

/-- `version[0] == "2"` (lines 70-73): IndexError on an empty version string,
otherwise the derived major-version key. -/
def major_key (v : String) : Except Err String :=
  match v.data with
  | [] => .error Err.indexError
  | c :: _ => .ok (if c = '2' then "2.x" else "1.x")

/-- Lines 76-79: the capability key, after the semver parse of the version
(ValueError → `parseError`). -/
def mc_key (v : String) : Except Err String :=
  match parseSemver v with
  | none => .error (.parseError v)
  | some t => .ok (if semverGE2120 t then "mc-capable" else "non-mc-capable")

/-- Lines 64-81: processing of one daily row, in source order — exact-version
increment, major-version increment, capability increment. -/
def procRow (m : OsMap) (d : Date) (r : String × Int) : Except Err OsMap :=
  match bump m r.1 d r.2 with
  | .error e => .error e
  | .ok m1 =>
    match major_key r.1 with
    | .error e => .error e
    | .ok mk =>
      match bump m1 mk d r.2 with
      | .error e => .error e
      | .ok m2 =>
        match mc_key r.1 with
        | .error e => .error e
        | .ok ck => bump m2 ck d r.2

/-- The `for row_idx in range(2, daily_sheet.nrows)` loop. -/
def procRows (m : OsMap) (d : Date) : List (String × Int) → Except Err OsMap
  | [] => .ok m
  | r :: rs =>
    match procRow m d r with
    | .error e => .error e
    | .ok m' => procRows m' d rs

/-- The `for daily in date_sheets` loop of lines 60-81: look the sheet up by
name, recompute its date, process its data rows. -/
def procSheetsByName (wb : Workbook) (m : OsMap) : List String → Except Err OsMap
  | [] => .ok m
  | n :: ns =>
    match sheet_by_name wb n with
    | none => .error (.sheetNotFound n)
    | some sh =>
      match get_date n with
      | .error e => .error e
      | .ok d =>
        match procRows m d (sh.rows.drop 2) with
        | .error e => .error e
        | .ok m' => procSheetsByName wb m' ns

/-- Embedding of `load_counts` (lines 28-82). -/
def load_counts (wb : Workbook) : Except Err OsMap :=
  match mapDates (dateSheetNames wb) with
  | .error e => .error e
  | .ok ds =>
    match sheet_by_name wb "OSVer" with
    | none => .error (.sheetNotFound "OSVer")
    | some ossheet =>
      procSheetsByName wb
        (initMap (ds.map (fun d => (d, (0 : Int)))) (catalogVersions ossheet))
        (dateSheetNames wb)

/-- Boolean test for the four derived keys. -/
def isExtra (k : String) : Bool :=
  k == "1.x" || k == "2.x" || k == "mc-capable" || k == "non-mc-capable"

/-- Count stored at row `i` of a series (0 outside the range). -/
def cellAt (s : Series) (i : Nat) : Int :=
  match s.get? i with
  | none => 0
  | some p => p.2

/-- Count stored under key `k` at row `i` (0 when the key is absent). -/
def countAt (m : OsMap) (k : String) (i : Nat) : Int :=
  match dictGet m k with
  | none => 0
  | some s => cellAt s i

/-- Sum of the counts at row `i` over the exact-version keys, i.e. every key
except the four derived ones. -/
def exactSum (m : OsMap) (i : Nat) : Int :=
  ((m.filter (fun p => !(isExtra p.1))).map (fun p => cellAt p.2 i)).sum

/-- Digit character for a value below ten (uses '9' above that). -/
def digitChar (n : Nat) : Char :=
  if n = 0 then '0' else if n = 1 then '1' else if n = 2 then '2' else if n = 3 then '3'
  else if n = 4 then '4' else if n = 5 then '5' else if n = 6 then '6' else if n = 7 then '7'
  else if n = 8 then '8' else '9'

/-- Two-digit zero-padded decimal rendering. -/
def pad2 (n : Nat) : List Char := [digitChar (n / 10), digitChar (n % 10)]

/-- Four-digit zero-padded decimal rendering. -/
def pad4 (n : Nat) : List Char :=
  [digitChar (n / 1000), digitChar (n / 100 % 10), digitChar (n / 10 % 10), digitChar (n % 10)]

/-- A canonical `YYYYMMDD` string. -/
def fmtYMD (y mo dy : Nat) : String := ⟨pad4 y ++ (pad2 mo ++ pad2 dy)⟩

/-- Invariant carried through the counting loops: keys are distinct, every
series lists the template dates in order, and each derived partition's two
series sum to the exact-version total at every row index. -/
def Inv (tpl : List Date) (m : OsMap) : Prop :=
  (m.map Prod.fst).Nodup ∧
  (∀ p ∈ m, p.2.map Prod.fst = tpl) ∧
  (∀ i, exactSum m i = countAt m "1.x" i + countAt m "2.x" i) ∧
  (∀ i, exactSum m i = countAt m "mc-capable" i + countAt m "non-mc-capable" i)

/-- All counts stored in the map are non-negative. -/
def NonnegMap (m : OsMap) : Prop := ∀ p ∈ m, ∀ e ∈ p.2, 0 ≤ e.2

/-- The date 2020-01-01, used by the concrete workbooks below. -/
def dD : Date := ⟨2020, 1, 1⟩

/-- OSVer sheet of the demonstration workbook: header row, then three versions. -/
def os5 : Sheet := ⟨"OSVer", [("v", 0), ("2.12.0", 0), ("2.11.9", 0), ("1.8.0", 0)]⟩

/-- Demonstration workbook: one date sheet with one row per catalog version. -/
def wb5 : Workbook := ⟨[⟨"SupVer", []⟩, os5, ⟨"Mods", []⟩,
  ⟨"20200101", [("h", 0), ("h", 0), ("2.12.0", 5), ("2.11.9", 3), ("1.8.0", 2)]⟩]⟩

/-- Result of `load_counts` on the demonstration workbook. -/
def m5 : OsMap := (load_counts wb5).toOption.getD []

/-- OSVer sheet whose catalog lists the same version twice. -/
def os1 : Sheet := ⟨"OSVer", [("v", 0), ("1.0.0", 0), ("1.0.0", 0)]⟩

/-- Workbook with a duplicated catalog version and one empty date sheet. -/
def wbC1 : Workbook := ⟨[⟨"SupVer", []⟩, os1, ⟨"Mods", []⟩, ⟨"20200101", []⟩]⟩

/-- Result of `load_counts` on the duplicated-catalog workbook. -/
def mC1 : OsMap := (load_counts wbC1).toOption.getD []

/-- Workbook whose only daily version, 3.0.0, starts with neither 1 nor 2. -/
def wbC4 : Workbook := ⟨[⟨"SupVer", []⟩, ⟨"OSVer", [("v", 0), ("3.0.0", 0)]⟩, ⟨"Mods", []⟩,
  ⟨"20200101", [("h", 0), ("h", 0), ("3.0.0", 5)]⟩]⟩

/-- Result of `load_counts` on the 3.0.0 workbook. -/
def mC4 : OsMap := (load_counts wbC4).toOption.getD []

/-- Workbook whose catalog and daily data contain an empty version string. -/
def wbC6 : Workbook := ⟨[⟨"SupVer", []⟩, ⟨"OSVer", [("v", 0), ("", 0)]⟩, ⟨"Mods", []⟩,
  ⟨"20200101", [("h", 0), ("h", 0), ("", 7)]⟩]⟩

/-- OSVer sheet listing only 1.0.0. -/
def osC7 : Sheet := ⟨"OSVer", [("v", 0), ("1.0.0", 0)]⟩

/-- Workbook with a daily row naming "1.x", which is absent from the catalog. -/
def wbC7 : Workbook := ⟨[⟨"SupVer", []⟩, osC7, ⟨"Mods", []⟩,
  ⟨"20200101", [("h", 0), ("h", 0), ("1.x", 5)]⟩]⟩

/-- Workbook with a negative daily count. -/
def wb9 : Workbook := ⟨[⟨"SupVer", []⟩, ⟨"OSVer", [("v", 0), ("1.0.0", 0)]⟩, ⟨"Mods", []⟩,
  ⟨"20200101", [("h", 0), ("h", 0), ("1.0.0", -3)]⟩]⟩

/-- Result of `load_counts` on the negative-count workbook. -/
def m9 : OsMap := (load_counts wb9).toOption.getD []

/-- OSVer sheet containing a derived key and a duplicate. -/
def os10 : Sheet := ⟨"OSVer", [("v", 0), ("1.x", 0), ("1.0.0", 0), ("1.0.0", 0)]⟩

/-- Workbook whose catalog collides with a derived key and repeats a version. -/
def wb10 : Workbook := ⟨[⟨"SupVer", []⟩, os10, ⟨"Mods", []⟩,
  ⟨"20200101", [("h", 0), ("h", 0), ("1.0.0", 5)]⟩]⟩

/-- Result of `load_counts` on the colliding-catalog workbook. -/
def m10 : OsMap := (load_counts wb10).toOption.getD []

/-- A one-date, one-version map used to witness row-level theorems. -/
def mW : OsMap := initMap [(dD, 0)] ["1.0.0"]

/-- The map `mW` after processing a `("1.0.0", 7)` row. -/
def mW' : OsMap := (procRow mW dD ("1.0.0", 7)).toOption.getD []

/-- A map whose only catalog version is not valid semver. -/
def mB : OsMap := initMap [(dD, 0)] ["badver"]

theorem dictGet_mem {m : OsMap} {k : String} {s : Series} (h : dictGet m k = some s) :
    (k, s) ∈ m := by
  induction m with
  | nil => simp [dictGet] at h
  | cons p rest ih =>
    rw [dictGet] at h
    by_cases hk : p.1 = k
    · rw [if_pos hk] at h
      injection h with h
      subst h; subst hk
      simp
    · rw [if_neg hk] at h
      exact List.mem_cons_of_mem _ (ih h)

theorem dictMem_iff_mem_keys (m : OsMap) (k : String) :
    dictMem m k = true ↔ k ∈ m.map Prod.fst := by
  induction m with
  | nil => simp [dictMem]
  | cons p rest ih =>
    simp only [dictMem, List.map_cons, List.mem_cons, Bool.or_eq_true, decide_eq_true_eq, ih]
    constructor
    · rintro (h | h)
      · exact Or.inl h.symm
      · exact Or.inr h
    · rintro (h | h)
      · exact Or.inl h.symm
      · exact Or.inr h

theorem not_mem_keys_dictMem {m : OsMap} {k : String} (h : k ∉ m.map Prod.fst) :
    dictMem m k = false := by
  cases hdm : dictMem m k
  · rfl
  · exact absurd ((dictMem_iff_mem_keys m k).mp hdm) h

theorem dictMem_iff_get (m : OsMap) (k : String) :
    dictMem m k = true ↔ ∃ s, dictGet m k = some s := by
  induction m with
  | nil => simp [dictMem, dictGet]
  | cons p rest ih =>
    by_cases hk : p.1 = k
    · simp [dictMem, dictGet, hk]
    · simp [dictMem, dictGet, hk, ih]

theorem dictSet_keys (m : OsMap) (k : String) (v : Series) :
    (dictSet m k v).map Prod.fst = m.map Prod.fst := by
  induction m with
  | nil => rfl
  | cons p rest ih =>
    by_cases hk : p.1 = k
    · simp [dictSet, hk, ih]
    · simp [dictSet, hk, ih]

theorem dictGet_dictSet_self {m : OsMap} {k : String} {s : Series} (v : Series)
    (h : dictGet m k = some s) : dictGet (dictSet m k v) k = some v := by
  induction m with
  | nil => simp [dictGet] at h
  | cons p rest ih =>
    by_cases hk : p.1 = k
    · simp [dictSet, dictGet, hk]
    · rw [dictGet, if_neg hk] at h
      simp [dictSet, dictGet, hk, ih h]

theorem dictGet_dictSet_ne (m : OsMap) (k k' : String) (v : Series) (h : k' ≠ k) :
    dictGet (dictSet m k v) k' = dictGet m k' := by
  induction m with
  | nil => rfl
  | cons p rest ih =>
    by_cases hk : p.1 = k
    · simp [dictSet, dictGet, hk, Ne.symm h, ih]
    · by_cases hk' : p.1 = k'
      · simp [dictSet, dictGet, hk, hk', h]
      · simp [dictSet, dictGet, hk, hk', ih]

theorem mem_dictSet {m : OsMap} {k : String} {v : Series} {p : String × Series}
    (h : p ∈ dictSet m k v) : p ∈ m ∨ p = (k, v) := by
  induction m with
  | nil => simp [dictSet] at h
  | cons q rest ih =>
    rw [dictSet] at h
    rcases List.mem_cons.mp h with h1 | h2
    · by_cases hk : q.1 = k
      · rw [if_pos hk] at h1; right; exact h1
      · rw [if_neg hk] at h1; left; exact List.mem_cons.mpr (Or.inl h1)
    · rcases ih h2 with h3 | h3
      · left; exact List.mem_cons.mpr (Or.inr h3)
      · right; exact h3

theorem dictSet_of_not_mem {m : OsMap} {k : String} (v : Series) (h : dictMem m k = false) :
    dictSet m k v = m := by
  induction m with
  | nil => rfl
  | cons p rest ih =>
    rw [dictMem] at h
    simp only [Bool.or_eq_false_iff, decide_eq_false_iff_not] at h
    rw [dictSet, if_neg h.1, ih h.2]

theorem incAt_map_fst (s : Series) (i : Nat) (c : Int) :
    (incAt s i c).map Prod.fst = s.map Prod.fst := by
  induction s generalizing i with
  | nil => rfl
  | cons p rest ih =>
    cases i with
    | zero => simp [incAt]
    | succ j => simp [incAt, ih]

theorem cellAt_incAt (s : Series) (i : Nat) (c : Int) (hi : i < s.length) (j : Nat) :
    cellAt (incAt s i c) j = if j = i then cellAt s j + c else cellAt s j := by
  induction s generalizing i j with
  | nil => simp at hi
  | cons p rest ih =>
    cases i with
    | zero =>
      cases j with
      | zero => simp [incAt, cellAt]
      | succ j' => simp [incAt, cellAt]
    | succ i' =>
      cases j with
      | zero => simp [incAt, cellAt]
      | succ j' =>
        have hi' : i' < rest.length := by simpa using hi
        simpa [incAt, cellAt] using ih i' hi' j'

theorem mem_incAt {s : Series} {i : Nat} {c : Int} {e : Date × Int} (h : e ∈ incAt s i c) :
    ∃ e0 ∈ s, e = e0 ∨ e = (e0.1, e0.2 + c) := by
  induction s generalizing i with
  | nil => simp [incAt] at h
  | cons p rest ih =>
    cases i with
    | zero =>
      rw [incAt] at h
      rcases List.mem_cons.mp h with h1 | h2
      · exact ⟨p, List.mem_cons_self _ _, Or.inr (by rw [h1])⟩
      · exact ⟨e, List.mem_cons.mpr (Or.inr h2), Or.inl rfl⟩
    | succ j =>
      rw [incAt] at h
      rcases List.mem_cons.mp h with h1 | h2
      · exact ⟨p, List.mem_cons_self _ _, Or.inl h1⟩
      · rcases ih h2 with ⟨e0, he0, hor⟩
        exact ⟨e0, List.mem_cons.mpr (Or.inr he0), hor⟩

theorem findDateIdx_eq_dateIdx (s : Series) (d : Date) :
    findDateIdx s d = dateIdx (s.map Prod.fst) d := by
  induction s with
  | nil => rfl
  | cons p rest ih => by_cases hd : p.1 = d <;> simp [findDateIdx, dateIdx, hd, ih]

theorem findDateIdx_lt {s : Series} {d : Date} {i : Nat} (h : findDateIdx s d = some i) :
    i < s.length := by
  induction s generalizing i with
  | nil => simp [findDateIdx] at h
  | cons p rest ih =>
    rw [findDateIdx] at h
    by_cases hd : p.1 = d
    · rw [if_pos hd] at h
      injection h with h
      simp [← h]
    · rw [if_neg hd] at h
      cases hfd : findDateIdx rest d with
      | none => rw [hfd] at h; simp at h
      | some j =>
        rw [hfd] at h
        simp only [Option.map_some'] at h
        injection h with h
        have := ih hfd
        simp [← h]
        omega

theorem bump_ok {m : OsMap} {k : String} {d : Date} {c : Int} {m' : OsMap}
    (h : bump m k d c = .ok m') :
    ∃ s i, dictGet m k = some s ∧ findDateIdx s d = some i ∧
      m' = dictSet m k (incAt s i c) := by
  simp only [bump] at h
  rcases hg : dictGet m k with _ | s
  · simp only [hg] at h
    exact Except.noConfusion h
  · simp only [hg] at h
    rcases hf : findDateIdx s d with _ | i
    · simp only [hf] at h
      exact Except.noConfusion h
    · simp only [hf] at h
      cases h
      exact ⟨s, i, rfl, hf, rfl⟩

theorem bump_keys {m m' : OsMap} {k : String} {d : Date} {c : Int}
    (h : bump m k d c = .ok m') : m'.map Prod.fst = m.map Prod.fst := by
  rcases bump_ok h with ⟨s, j, hg, hf, rfl⟩
  exact dictSet_keys m k _

theorem bump_aligned {tpl : List Date} {m m' : OsMap} {k : String} {d : Date} {c : Int}
    (hal : ∀ p ∈ m, p.2.map Prod.fst = tpl) (h : bump m k d c = .ok m') :
    ∀ p ∈ m', p.2.map Prod.fst = tpl := by
  rcases bump_ok h with ⟨s, j, hg, hf, rfl⟩
  intro p hp
  rcases mem_dictSet hp with h1 | h1
  · exact hal p h1
  · subst h1
    show (incAt s j c).map Prod.fst = tpl
    rw [incAt_map_fst]
    exact hal (k, s) (dictGet_mem hg)

theorem countAt_dictSet_ne (m : OsMap) (k k' : String) (v : Series) (h : k' ≠ k) (i : Nat) :
    countAt (dictSet m k v) k' i = countAt m k' i := by
  rw [countAt, countAt, dictGet_dictSet_ne m k k' v h]

theorem countAt_bump_ne {m m' : OsMap} {k : String} {d : Date} {c : Int}
    (h : bump m k d c = .ok m') (k' : String) (hk : k' ≠ k) (i : Nat) :
    countAt m' k' i = countAt m k' i := by
  rcases bump_ok h with ⟨s, j, hg, hf, rfl⟩
  exact countAt_dictSet_ne m k k' _ hk i

theorem countAt_bump_self {tpl : List Date} {m m' : OsMap} {k : String} {d : Date} {c : Int}
    (hal : ∀ p ∈ m, p.2.map Prod.fst = tpl)
    (h : bump m k d c = .ok m') :
    ∃ i0, dateIdx tpl d = some i0 ∧
      ∀ i, countAt m' k i = countAt m k i + (if i = i0 then c else 0) := by
  rcases bump_ok h with ⟨s, j, hg, hf, rfl⟩
  have hs : s.map Prod.fst = tpl := hal (k, s) (dictGet_mem hg)
  refine ⟨j, by rw [← hs, ← findDateIdx_eq_dateIdx, hf], fun i => ?_⟩
  have hj : j < s.length := findDateIdx_lt hf
  simp only [countAt, dictGet_dictSet_self _ hg, hg]
  rw [cellAt_incAt s j c hj i]
  by_cases hij : i = j
  · simp [hij]
  · simp [hij]

theorem isExtra_iff (k : String) : isExtra k = true ↔ k ∈ extra_versions := by
  simp [isExtra, extra_versions]
  tauto

theorem parseSemver_extra_none {v : String} (h : v ∈ extra_versions) : parseSemver v = none := by
  simp only [extra_versions, List.mem_cons, List.not_mem_nil, or_false] at h
  rcases h with rfl | rfl | rfl | rfl <;> rfl

theorem parseSemver_not_extra {v : String} {t : Nat × Nat × Nat × Bool}
    (h : parseSemver v = some t) : isExtra v = false := by
  cases hx : isExtra v
  · rfl
  · rw [parseSemver_extra_none ((isExtra_iff v).mp hx)] at h
    exact Option.noConfusion h

theorem major_key_cases {v mk : String} (h : major_key v = .ok mk) :
    (mk = "1.x" ∨ mk = "2.x") ∧ v.data ≠ [] := by
  cases hd : v.data with
  | nil =>
    simp only [major_key, hd] at h
    exact Except.noConfusion h
  | cons c rest =>
    simp only [major_key, hd, Except.ok.injEq] at h
    refine ⟨?_, by simp [hd]⟩
    by_cases hc : c = '2'
    · rw [if_pos hc] at h
      exact Or.inr h.symm
    · rw [if_neg hc] at h
      exact Or.inl h.symm

theorem mc_key_cases {v ck : String} (h : mc_key v = .ok ck) :
    (ck = "mc-capable" ∨ ck = "non-mc-capable") ∧ isExtra v = false := by
  cases hp : parseSemver v with
  | none =>
    simp only [mc_key, hp] at h
    exact Except.noConfusion h
  | some t =>
    simp only [mc_key, hp, Except.ok.injEq] at h
    refine ⟨?_, parseSemver_not_extra hp⟩
    by_cases hb : semverGE2120 t = true
    · rw [if_pos hb] at h
      exact Or.inl h.symm
    · rw [if_neg hb] at h
      exact Or.inr h.symm

theorem exactSum_cons (p : String × Series) (l : OsMap) (i : Nat) :
    exactSum (p :: l) i = (if isExtra p.1 then 0 else cellAt p.2 i) + exactSum l i := by
  by_cases h : isExtra p.1 = true
  · simp [exactSum, List.filter_cons, h]
  · simp [exactSum, List.filter_cons, h]

theorem exactSum_dictSet_extra {k : String} (hk : isExtra k = true)
    (m : OsMap) (v : Series) (i : Nat) :
    exactSum (dictSet m k v) i = exactSum m i := by
  induction m with
  | nil => rfl
  | cons p rest ih =>
    rw [dictSet]
    by_cases hpk : p.1 = k
    · rw [if_pos hpk, exactSum_cons, exactSum_cons, ih, hpk]
      simp [hk]
    · rw [if_neg hpk, exactSum_cons, exactSum_cons, ih]

theorem exactSum_dictSet_inc {m : OsMap} {k : String} {s : Series} {j : Nat} {c : Int}
    (hk : isExtra k = false) (hnd : (m.map Prod.fst).Nodup)
    (hg : dictGet m k = some s) (hj : j < s.length) (i : Nat) :
    exactSum (dictSet m k (incAt s j c)) i = exactSum m i + (if i = j then c else 0) := by
  induction m with
  | nil => simp [dictGet] at hg
  | cons p rest ih =>
    rw [dictGet] at hg
    rw [dictSet]
    rw [List.map_cons, List.nodup_cons] at hnd
    by_cases hpk : p.1 = k
    · rw [if_pos hpk] at hg ⊢
      injection hg with hg
      subst hg
      have hknot : dictMem rest k = false := not_mem_keys_dictMem (hpk ▸ hnd.1)
      rw [dictSet_of_not_mem _ hknot, exactSum_cons, exactSum_cons]
      have hc1 : isExtra (k, incAt p.2 j c).1 = false := hk
      have hc2 : isExtra p.1 = false := by rw [hpk]; exact hk
      rw [hc1, hc2]
      simp only [Bool.false_eq_true, if_false]
      rw [cellAt_incAt p.2 j c hj i]
      split_ifs with hij
      · ring
      · ring
    · rw [if_neg hpk] at hg ⊢
      rw [exactSum_cons, exactSum_cons, ih hnd.2 hg]
      ring

theorem exactSum_bump_extra {m m' : OsMap} {k : String} {d : Date} {c : Int}
    (hk : isExtra k = true) (h : bump m k d c = .ok m') (i : Nat) :
    exactSum m' i = exactSum m i := by
  rcases bump_ok h with ⟨s, j, hg, hf, rfl⟩
  exact exactSum_dictSet_extra hk m _ i

theorem exactSum_bump_inc {tpl : List Date} {m m' : OsMap} {k : String} {d : Date} {c : Int}
    (hk : isExtra k = false) (hnd : (m.map Prod.fst).Nodup)
    (hal : ∀ p ∈ m, p.2.map Prod.fst = tpl)
    (h : bump m k d c = .ok m') :
    ∃ i0, dateIdx tpl d = some i0 ∧
      ∀ i, exactSum m' i = exactSum m i + (if i = i0 then c else 0) := by
  rcases bump_ok h with ⟨s, j, hg, hf, rfl⟩
  have hs : s.map Prod.fst = tpl := hal (k, s) (dictGet_mem hg)
  refine ⟨j, by rw [← hs, ← findDateIdx_eq_dateIdx, hf], fun i => ?_⟩
  exact exactSum_dictSet_inc hk hnd hg (findDateIdx_lt hf) i

theorem procRow_effect {tpl : List Date} {m m' : OsMap} {d : Date} {v : String} {c : Int}
    (hnd : (m.map Prod.fst).Nodup) (hal : ∀ p ∈ m, p.2.map Prod.fst = tpl)
    (h : procRow m d (v, c) = .ok m') :
    ∃ i0, dateIdx tpl d = some i0 ∧
      m'.map Prod.fst = m.map Prod.fst ∧
      (∀ p ∈ m', p.2.map Prod.fst = tpl) ∧
      isExtra v = false ∧
      (∀ i, exactSum m' i = exactSum m i + (if i = i0 then c else 0)) ∧
      (∀ i, countAt m' "1.x" i + countAt m' "2.x" i
          = countAt m "1.x" i + countAt m "2.x" i + (if i = i0 then c else 0)) ∧
      (∀ i, countAt m' "mc-capable" i + countAt m' "non-mc-capable" i
          = countAt m "mc-capable" i + countAt m "non-mc-capable" i
            + (if i = i0 then c else 0)) := by
  simp only [procRow] at h
  rcases hb1 : bump m v d c with e | m1
  · simp only [hb1] at h
    exact Except.noConfusion h
  · simp only [hb1] at h
    rcases hmk : major_key v with e | mk
    · simp only [hmk] at h
      exact Except.noConfusion h
    · simp only [hmk] at h
      rcases hb2 : bump m1 mk d c with e | m2
      · simp only [hb2] at h
        exact Except.noConfusion h
      · simp only [hb2] at h
        rcases hck : mc_key v with e | ck
        · simp only [hck] at h
          exact Except.noConfusion h
        · simp only [hck] at h
          have hmkc := major_key_cases hmk
          have hckc := mc_key_cases hck
          have hvx : isExtra v = false := hckc.2
          have hal1 := bump_aligned hal hb1
          have hkeys1 := bump_keys hb1
          have hnd1 : (m1.map Prod.fst).Nodup := by rw [hkeys1]; exact hnd
          have hal2 := bump_aligned hal1 hb2
          have hkeys2 := bump_keys hb2
          have hal3 := bump_aligned hal2 h
          have hkeys3 := bump_keys h
          rcases exactSum_bump_inc hvx hnd hal hb1 with ⟨i0, hd0, hex1⟩
          have hmkx : isExtra mk = true := by rcases hmkc.1 with rfl | rfl <;> rfl
          have hckx : isExtra ck = true := by rcases hckc.1 with rfl | rfl <;> rfl
          have hex2 : ∀ i, exactSum m2 i = exactSum m1 i := exactSum_bump_extra hmkx hb2
          have hex3 : ∀ i, exactSum m' i = exactSum m2 i := exactSum_bump_extra hckx h
          rcases countAt_bump_self hal1 hb2 with ⟨i1, hd1, h12⟩
          have hi10 : i1 = i0 := by
            rw [hd0] at hd1
            injection hd1 with hinj
            exact hinj.symm
          rcases countAt_bump_self hal2 h with ⟨i2, hd2, hm3⟩
          have hi20 : i2 = i0 := by
            rw [hd0] at hd2
            injection hd2 with hinj
            exact hinj.symm
          have hvne : ∀ x ∈ extra_versions, v ≠ x := by
            intro x hx he
            subst he
            rw [(isExtra_iff v).mpr hx] at hvx
            exact Bool.noConfusion hvx
          refine ⟨i0, hd0, by rw [hkeys3, hkeys2, hkeys1], hal3, hvx, ?_, ?_, ?_⟩
          · intro i
            rw [hex3 i, hex2 i, hex1 i]
          · intro i
            have t1a := countAt_bump_ne hb1 "1.x" (Ne.symm (hvne "1.x" (by decide))) i
            have t1b := countAt_bump_ne hb1 "2.x" (Ne.symm (hvne "2.x" (by decide))) i
            have t3 : countAt m' "1.x" i + countAt m' "2.x" i
                = countAt m2 "1.x" i + countAt m2 "2.x" i := by
              rcases hckc.1 with rfl | rfl
              · rw [countAt_bump_ne h "1.x" (by decide) i, countAt_bump_ne h "2.x" (by decide) i]
              · rw [countAt_bump_ne h "1.x" (by decide) i, countAt_bump_ne h "2.x" (by decide) i]
            have t2 : countAt m2 "1.x" i + countAt m2 "2.x" i
                = countAt m1 "1.x" i + countAt m1 "2.x" i + (if i = i0 then c else 0) := by
              rcases hmkc.1 with rfl | rfl
              · rw [h12 i, hi10, countAt_bump_ne hb2 "2.x" (by decide) i]
                ring
              · rw [h12 i, hi10, countAt_bump_ne hb2 "1.x" (by decide) i]
                ring
            rw [t3, t2, t1a, t1b]
          · intro i
            have t1a := countAt_bump_ne hb1 "mc-capable"
              (Ne.symm (hvne "mc-capable" (by decide))) i
            have t1b := countAt_bump_ne hb1 "non-mc-capable"
              (Ne.symm (hvne "non-mc-capable" (by decide))) i
            have t2 : countAt m2 "mc-capable" i + countAt m2 "non-mc-capable" i
                = countAt m1 "mc-capable" i + countAt m1 "non-mc-capable" i := by
              rcases hmkc.1 with rfl | rfl
              · rw [countAt_bump_ne hb2 "mc-capable" (by decide) i,
                    countAt_bump_ne hb2 "non-mc-capable" (by decide) i]
              · rw [countAt_bump_ne hb2 "mc-capable" (by decide) i,
                    countAt_bump_ne hb2 "non-mc-capable" (by decide) i]
            have t3 : countAt m' "mc-capable" i + countAt m' "non-mc-capable" i
                = countAt m2 "mc-capable" i + countAt m2 "non-mc-capable" i
                  + (if i = i0 then c else 0) := by
              rcases hckc.1 with rfl | rfl
              · rw [hm3 i, hi20, countAt_bump_ne h "non-mc-capable" (by decide) i]
                ring
              · rw [hm3 i, hi20, countAt_bump_ne h "mc-capable" (by decide) i]
                ring
            rw [t3, t2, t1a, t1b]

theorem procRow_keys {m m' : OsMap} {d : Date} {r : String × Int}
    (h : procRow m d r = .ok m') : m'.map Prod.fst = m.map Prod.fst := by
  simp only [procRow] at h
  rcases hb1 : bump m r.1 d r.2 with e | m1
  · simp only [hb1] at h
    exact Except.noConfusion h
  · simp only [hb1] at h
    rcases hmk : major_key r.1 with e | mk
    · simp only [hmk] at h
      exact Except.noConfusion h
    · simp only [hmk] at h
      rcases hb2 : bump m1 mk d r.2 with e | m2
      · simp only [hb2] at h
        exact Except.noConfusion h
      · simp only [hb2] at h
        rcases hck : mc_key r.1 with e | ck
        · simp only [hck] at h
          exact Except.noConfusion h
        · simp only [hck] at h
          rw [bump_keys h, bump_keys hb2, bump_keys hb1]

theorem procRow_inv {tpl : List Date} {m m' : OsMap} {d : Date} {r : String × Int}
    (hI : Inv tpl m) (h : procRow m d r = .ok m') : Inv tpl m' := by
  obtain ⟨v, c⟩ := r
  obtain ⟨hnd, hal, h12, hmc⟩ := hI
  obtain ⟨i0, hd0, hkeys, hal', hvx, hex, hp12, hpmc⟩ := procRow_effect hnd hal h
  refine ⟨by rw [hkeys]; exact hnd, hal', fun i => ?_, fun i => ?_⟩
  · rw [hex i, hp12 i, h12 i]
  · rw [hex i, hpmc i, hmc i]

theorem procRows_inv {tpl : List Date} {d : Date} :
    ∀ (rows : List (String × Int)) (m m' : OsMap),
      Inv tpl m → procRows m d rows = .ok m' → Inv tpl m' := by
  intro rows
  induction rows with
  | nil =>
    intro m m' hI h
    simp only [procRows] at h
    cases h
    exact hI
  | cons r rs ih =>
    intro m m' hI h
    simp only [procRows] at h
    rcases hr : procRow m d r with e | m1
    · simp only [hr] at h
      exact Except.noConfusion h
    · simp only [hr] at h
      exact ih m1 m' (procRow_inv hI hr) h

theorem procSheets_inv {tpl : List Date} {wb : Workbook} :
    ∀ (names : List String) (m m' : OsMap),
      Inv tpl m → procSheetsByName wb m names = .ok m' → Inv tpl m' := by
  intro names
  induction names with
  | nil =>
    intro m m' hI h
    simp only [procSheetsByName] at h
    cases h
    exact hI
  | cons n ns ih =>
    intro m m' hI h
    simp only [procSheetsByName] at h
    rcases hs : sheet_by_name wb n with _ | sh
    · simp only [hs] at h
      exact Except.noConfusion h
    · simp only [hs] at h
      rcases hd : get_date n with e | d
      · simp only [hd] at h
        exact Except.noConfusion h
      · simp only [hd] at h
        rcases hpr : procRows m d (sh.rows.drop 2) with e | m1
        · simp only [hpr] at h
          exact Except.noConfusion h
        · simp only [hpr] at h
          exact ih m1 m' (procRows_inv _ m m1 hI hpr) h

theorem foldIns_values (tplS : Series) :
    ∀ (l : List String) (m0 : OsMap), (∀ p ∈ m0, p.2 = tplS) →
      ∀ p ∈ l.foldl (fun m v => dictInsert m v tplS) m0, p.2 = tplS := by
  intro l
  induction l with
  | nil =>
    intro m0 h0
    simpa using h0
  | cons a l ih =>
    intro m0 h0
    simp only [List.foldl_cons]
    apply ih
    intro p hp
    rw [dictInsert] at hp
    by_cases hm : dictMem m0 a = true
    · rw [if_pos hm] at hp
      rcases mem_dictSet hp with h1 | h1
      · exact h0 p h1
      · rw [h1]
    · rw [if_neg hm] at hp
      rcases List.mem_append.mp hp with h1 | h1
      · exact h0 p h1
      · simp only [List.mem_singleton] at h1
        rw [h1]

theorem initMap_values (tplS : Series) (cat : List String) :
    ∀ p ∈ initMap tplS cat, p.2 = tplS := by
  rw [initMap]
  exact foldIns_values tplS (cat ++ extra_versions) [] (by simp)

theorem dictInsert_keys (m : OsMap) (k : String) (v : Series) :
    (dictInsert m k v).map Prod.fst
      = if dictMem m k then m.map Prod.fst else m.map Prod.fst ++ [k] := by
  rw [dictInsert]
  by_cases hm : dictMem m k = true
  · rw [if_pos hm, if_pos hm, dictSet_keys]
  · rw [if_neg hm, if_neg hm, List.map_append]
    rfl

theorem foldIns_keys_nodup (tplS : Series) :
    ∀ (l : List String) (m0 : OsMap), (m0.map Prod.fst).Nodup →
      ((l.foldl (fun m v => dictInsert m v tplS) m0).map Prod.fst).Nodup := by
  intro l
  induction l with
  | nil =>
    intro m0 h0
    simpa using h0
  | cons a l ih =>
    intro m0 h0
    simp only [List.foldl_cons]
    apply ih
    rw [dictInsert_keys]
    by_cases hm : dictMem m0 a = true
    · rw [if_pos hm]
      exact h0
    · rw [if_neg hm]
      have hna : a ∉ m0.map Prod.fst := fun hmem => hm ((dictMem_iff_mem_keys m0 a).mpr hmem)
      simp [List.nodup_append, h0, List.disjoint_left, hna]

theorem initMap_keys_nodup (tplS : Series) (cat : List String) :
    ((initMap tplS cat).map Prod.fst).Nodup := by
  rw [initMap]
  exact foldIns_keys_nodup tplS _ [] (by simp)

theorem foldIns_mem (tplS : Series) :
    ∀ (l : List String) (m0 : OsMap) (k : String),
      (k ∈ (l.foldl (fun m v => dictInsert m v tplS) m0).map Prod.fst) ↔
        k ∈ m0.map Prod.fst ∨ k ∈ l := by
  intro l
  induction l with
  | nil =>
    intro m0 k
    simp
  | cons a l ih =>
    intro m0 k
    simp only [List.foldl_cons, ih, List.mem_cons]
    rw [dictInsert_keys]
    by_cases hm : dictMem m0 a = true
    · rw [if_pos hm]
      have ha : a ∈ m0.map Prod.fst := (dictMem_iff_mem_keys m0 a).mp hm
      constructor
      · rintro (h1 | h1)
        · exact Or.inl h1
        · exact Or.inr (Or.inr h1)
      · rintro (h1 | h1 | h1)
        · exact Or.inl h1
        · subst h1
          exact Or.inl ha
        · exact Or.inr h1
    · rw [if_neg hm]
      simp only [List.mem_append, List.mem_singleton]
      tauto

theorem foldIns_keys_of_nodup (tplS : Series) :
    ∀ (l : List String) (m0 : OsMap), l.Nodup → (∀ k ∈ l, dictMem m0 k = false) →
      (l.foldl (fun m v => dictInsert m v tplS) m0).map Prod.fst
        = m0.map Prod.fst ++ l := by
  intro l
  induction l with
  | nil =>
    intro m0 _ _
    simp
  | cons a l ih =>
    intro m0 hnd hdis
    simp only [List.foldl_cons]
    rw [List.nodup_cons] at hnd
    have hm : dictMem m0 a = false := hdis a (List.mem_cons_self a l)
    have hkeys : (dictInsert m0 a tplS).map Prod.fst = m0.map Prod.fst ++ [a] := by
      rw [dictInsert_keys, if_neg (by simp [hm])]
    have hdis' : ∀ k ∈ l, dictMem (dictInsert m0 a tplS) k = false := by
      intro k hk
      apply not_mem_keys_dictMem
      rw [hkeys]
      intro hmem
      rcases List.mem_append.mp hmem with h1 | h1
      · have h2 := (dictMem_iff_mem_keys m0 k).mpr h1
        rw [hdis k (List.mem_cons_of_mem a hk)] at h2
        exact Bool.noConfusion h2
      · simp only [List.mem_singleton] at h1
        subst h1
        exact hnd.1 hk
    rw [ih (dictInsert m0 a tplS) hnd.2 hdis', hkeys, List.append_assoc]
    rfl

theorem initMap_keys_of_nodup (tplS : Series) (cat : List String)
    (hnd : (cat ++ extra_versions).Nodup) :
    (initMap tplS cat).map Prod.fst = cat ++ extra_versions := by
  rw [initMap]
  have h := foldIns_keys_of_nodup tplS (cat ++ extra_versions) [] hnd (by intro k _; rfl)
  simpa using h

theorem cellAt_of_zero {s : Series} (hs : ∀ e ∈ s, e.2 = 0) (i : Nat) : cellAt s i = 0 := by
  cases hq : s.get? i with
  | none => simp only [cellAt, hq]
  | some e =>
    simp only [cellAt, hq]
    exact hs e (List.get?_mem hq)

theorem exactSum_of_zero {m : OsMap} (hz : ∀ p ∈ m, ∀ e ∈ p.2, e.2 = 0) (i : Nat) :
    exactSum m i = 0 := by
  rw [exactSum]
  apply List.sum_eq_zero
  intro x hx
  rcases List.mem_map.mp hx with ⟨p, hp, rfl⟩
  have hp' : p ∈ m := List.mem_of_mem_filter hp
  exact cellAt_of_zero (hz p hp') i

theorem countAt_of_zero {m : OsMap} (hz : ∀ p ∈ m, ∀ e ∈ p.2, e.2 = 0)
    (k : String) (i : Nat) : countAt m k i = 0 := by
  cases hg : dictGet m k with
  | none => simp [countAt, hg]
  | some s =>
    simp only [countAt, hg]
    exact cellAt_of_zero (hz (k, s) (dictGet_mem hg)) i

theorem initMap_inv (ds : List Date) (cat : List String) :
    Inv ds (initMap (ds.map (fun d => (d, (0 : Int)))) cat) := by
  have hvals := initMap_values (ds.map (fun d => (d, (0 : Int)))) cat
  have hz : ∀ p ∈ initMap (ds.map (fun d => (d, (0 : Int)))) cat, ∀ e ∈ p.2, e.2 = 0 := by
    intro p hp e he
    rw [hvals p hp] at he
    rcases List.mem_map.mp he with ⟨d, _, rfl⟩
    rfl
  refine ⟨initMap_keys_nodup _ _, ?_, ?_, ?_⟩
  · intro p hp
    rw [hvals p hp]
    simp [Function.comp_def]
  · intro i
    rw [exactSum_of_zero hz i, countAt_of_zero hz _ i, countAt_of_zero hz _ i]
    rfl
  · intro i
    rw [exactSum_of_zero hz i, countAt_of_zero hz _ i, countAt_of_zero hz _ i]
    rfl

theorem load_counts_ok {wb : Workbook} {m : OsMap} (h : load_counts wb = .ok m) :
    ∃ ds ossheet, mapDates (dateSheetNames wb) = .ok ds ∧
      sheet_by_name wb "OSVer" = some ossheet ∧
      procSheetsByName wb
        (initMap (ds.map (fun d => (d, (0 : Int)))) (catalogVersions ossheet))
        (dateSheetNames wb) = .ok m := by
  simp only [load_counts] at h
  rcases hd : mapDates (dateSheetNames wb) with e | ds
  · simp only [hd] at h
    exact Except.noConfusion h
  · simp only [hd] at h
    rcases hs : sheet_by_name wb "OSVer" with _ | osh
    · simp only [hs] at h
      exact Except.noConfusion h
    · simp only [hs] at h
      exact ⟨ds, osh, rfl, rfl, h⟩

/-- C5: a daily row with version "2.12.0" contributes its count to the 2.x and
mc-capable series; "2.11.9" to 2.x and non-mc-capable; "1.8.0" to 1.x and
non-mc-capable — the capability boundary is inclusive at exactly 2.12.0. On the
demonstration workbook the counts 5, 3, 2 land accordingly: 2.x = 5+3, 1.x = 2,
mc-capable = 5, non-mc-capable = 3+2. -/
theorem c5_contributions :
    major_key "2.12.0" = .ok "2.x" ∧ mc_key "2.12.0" = .ok "mc-capable" ∧
    major_key "2.11.9" = .ok "2.x" ∧ mc_key "2.11.9" = .ok "non-mc-capable" ∧
    major_key "1.8.0" = .ok "1.x" ∧ mc_key "1.8.0" = .ok "non-mc-capable" ∧
    load_counts wb5 = .ok m5 ∧
    dictGet m5 "2.x" = some [(dD, 8)] ∧ dictGet m5 "1.x" = some [(dD, 2)] ∧
    dictGet m5 "mc-capable" = some [(dD, 5)] ∧ dictGet m5 "non-mc-capable" = some [(dD, 5)] ∧
    dictGet m5 "2.12.0" = some [(dD, 5)] ∧ dictGet m5 "2.11.9" = some [(dD, 3)] ∧
    dictGet m5 "1.8.0" = some [(dD, 2)] :=
  ⟨rfl, rfl, rfl, rfl, rfl, rfl, rfl, rfl, rfl, rfl, rfl, rfl, rfl, rfl⟩

/-- C1 counterexample: a workbook whose catalog sheet holds V = 2 version
strings (the same string twice) is processed without error, but the mapping has
5 keys, not V + 4 = 6 — the claim fails without a distinctness assumption. -/
theorem c1_counterexample :
    sheet_by_name wbC1 "OSVer" = some os1 ∧ (catalogVersions os1).length = 2 ∧
    load_counts wbC1 = .ok mC1 ∧ mC1.length = 5 ∧ (5 : Nat) ≠ 2 + 4 :=
  ⟨rfl, rfl, rfl, rfl, by decide⟩

/-- C4 counterexample: the daily row ("3.0.0", 5) does not start with '1', so
the claim requires its count to be added to 2.x; the code instead tests for
'2' and defaults to 1.x, leaving 2.x at zero and putting 5 into 1.x. -/
theorem c4_counterexample :
    "3.0.0".data.head? ≠ some '1' ∧
    load_counts wbC4 = .ok mC4 ∧
    dictGet mC4 "2.x" = some [(dD, 0)] ∧ dictGet mC4 "1.x" = some [(dD, 5)] :=
  ⟨by decide, rfl, rfl, rfl⟩

/-- C6 counterexample: the empty version string is not valid semver, yet the
aggregator fails with IndexError (raised by `version[0]` before the capability
predicate is reached), not with ParseError. -/
theorem c6_counterexample :
    parseSemver "" = none ∧ load_counts wbC6 = .error .indexError ∧
    Err.indexError ≠ .parseError "" :=
  ⟨rfl, rfl, by decide⟩

/-- C7 counterexample: the daily row ("1.x", 5) names a version absent from the
catalog sheet, yet the aggregator does not raise LookupError — the derived key
"1.x" is present in the mapping, the row is counted, and the run then aborts
with ParseError from the capability predicate. -/
theorem c7_counterexample :
    "1.x" ∉ catalogVersions osC7 ∧ sheet_by_name wbC7 "OSVer" = some osC7 ∧
    load_counts wbC7 = .error (.parseError "1.x") ∧
    Err.parseError "1.x" ≠ .lookupError "1.x" :=
  ⟨by decide, rfl, rfl, by decide⟩

/-- C8 counterexample: "202011" has the wrong length for YYYYMMDD, yet
`get_date` accepts it (CPython's %m and %d match single digits) and returns
2020-01-01 instead of failing with FormatError. -/
theorem c8_counterexample :
    get_date "202011" = .ok ⟨2020, 1, 1⟩ ∧ "202011".length ≠ 8 :=
  ⟨rfl, by decide⟩

/-- C9 counterexample: nothing guards against negative counts in the workbook,
so a daily row with count -3 produces a series whose stored count is the
negative integer -3. -/
theorem c9_counterexample :
    load_counts wb9 = .ok m9 ∧ countAt m9 "1.0.0" 0 = -3 ∧ ¬ (0 : Int) ≤ -3 :=
  ⟨rfl, rfl, by decide⟩

theorem procRows_keys {d : Date} :
    ∀ (rows : List (String × Int)) (m m' : OsMap),
      procRows m d rows = .ok m' → m'.map Prod.fst = m.map Prod.fst := by
  intro rows
  induction rows with
  | nil =>
    intro m m' h
    simp only [procRows] at h
    cases h
    rfl
  | cons r rs ih =>
    intro m m' h
    simp only [procRows] at h
    rcases hr : procRow m d r with e | m1
    · simp only [hr] at h
      exact Except.noConfusion h
    · simp only [hr] at h
      rw [ih m1 m' h, procRow_keys hr]

theorem procSheets_keys {wb : Workbook} :
    ∀ (names : List String) (m m' : OsMap),
      procSheetsByName wb m names = .ok m' → m'.map Prod.fst = m.map Prod.fst := by
  intro names
  induction names with
  | nil =>
    intro m m' h
    simp only [procSheetsByName] at h
    cases h
    rfl
  | cons n ns ih =>
    intro m m' h
    simp only [procSheetsByName] at h
    rcases hs : sheet_by_name wb n with _ | sh
    · simp only [hs] at h
      exact Except.noConfusion h
    · simp only [hs] at h
      rcases hd : get_date n with e | d
      · simp only [hd] at h
        exact Except.noConfusion h
      · simp only [hd] at h
        rcases hpr : procRows m d (sh.rows.drop 2) with e | m1
        · simp only [hpr] at h
          exact Except.noConfusion h
        · simp only [hpr] at h
          rw [ih m1 m' h, procRows_keys _ m m1 hpr]

theorem mapDates_length :
    ∀ (names : List String) (ds : List Date), mapDates names = .ok ds →
      ds.length = names.length := by
  intro names
  induction names with
  | nil =>
    intro ds h
    simp only [mapDates] at h
    cases h
    rfl
  | cons n ns ih =>
    intro ds h
    simp only [mapDates] at h
    rcases hd : get_date n with e | d
    · simp only [hd] at h
      exact Except.noConfusion h
    · simp only [hd] at h
      rcases hm : mapDates ns with e | ds'
      · simp only [hm] at h
        exact Except.noConfusion h
      · simp only [hm] at h
        cases h
        simp [ih ds' hm]

/-- C2: for every workbook on which `load_counts` succeeds and every row index
(each row of a series holds one date, in sheet order), the sum of the counts
at that index over all exact-version keys equals the sum of the 1.x and 2.x
counts there. -/
theorem c2_sum_major (wb : Workbook) (m : OsMap) (h : load_counts wb = .ok m) (i : Nat) :
    exactSum m i = countAt m "1.x" i + countAt m "2.x" i := by
  rcases load_counts_ok h with ⟨ds, osh, hd, hs, hp⟩
  exact (procSheets_inv (dateSheetNames wb) _ m
    (initMap_inv ds (catalogVersions osh)) hp).2.2.1 i

/-- Witness for C2: the demonstration workbook at its only date, 5+3+2 = 8+2. -/
theorem c2_witness : exactSum m5 0 = countAt m5 "1.x" 0 + countAt m5 "2.x" 0 :=
  c2_sum_major wb5 m5 rfl 0

/-- C3: for every workbook on which `load_counts` succeeds and every row index,
the sum of the counts at that index over all exact-version keys equals the sum
of the mc-capable and non-mc-capable counts there. -/
theorem c3_sum_mc (wb : Workbook) (m : OsMap) (h : load_counts wb = .ok m) (i : Nat) :
    exactSum m i = countAt m "mc-capable" i + countAt m "non-mc-capable" i := by
  rcases load_counts_ok h with ⟨ds, osh, hd, hs, hp⟩
  exact (procSheets_inv (dateSheetNames wb) _ m
    (initMap_inv ds (catalogVersions osh)) hp).2.2.2 i

/-- Witness for C3: the demonstration workbook at its only date, 5+3+2 = 5+5. -/
theorem c3_witness :
    exactSum m5 0 = countAt m5 "mc-capable" 0 + countAt m5 "non-mc-capable" 0 :=
  c3_sum_mc wb5 m5 rfl 0

/-- C1 amended: when the catalog versions are pairwise distinct and none of
them equals a derived key, the mapping returned by `load_counts` has exactly
the catalog keys followed by the four derived keys (hence V + 4 keys), and
every series lists exactly the dates of the date sheets, in sheet order. The
distinctness hypothesis cannot be dropped: see the counterexample. -/
theorem c1_amended (wb : Workbook) (m : OsMap) (h : load_counts wb = .ok m)
    (osh : Sheet) (hosh : sheet_by_name wb "OSVer" = some osh)
    (hnd : (catalogVersions osh ++ extra_versions).Nodup) :
    m.map Prod.fst = catalogVersions osh ++ extra_versions ∧
    m.length = (catalogVersions osh).length + 4 ∧
    ∃ ds, mapDates (dateSheetNames wb) = .ok ds ∧
      ds.length = (dateSheetNames wb).length ∧
      ∀ p ∈ m, p.2.map Prod.fst = ds := by
  rcases load_counts_ok h with ⟨ds, osh', hd, hs, hp⟩
  rw [hosh] at hs
  injection hs with hs
  subst hs
  have hkeys : m.map Prod.fst = catalogVersions osh ++ extra_versions := by
    rw [procSheets_keys (dateSheetNames wb) _ m hp]
    exact initMap_keys_of_nodup _ _ hnd
  have hlen : m.length = (catalogVersions osh).length + 4 := by
    have hc := congrArg List.length hkeys
    simpa [extra_versions] using hc
  refine ⟨hkeys, hlen, ds, hd, mapDates_length _ ds hd, ?_⟩
  exact (procSheets_inv (dateSheetNames wb) _ m
    (initMap_inv ds (catalogVersions osh)) hp).2.1

/-- Witness for C1 (amended) at the demonstration workbook: 3 catalog versions,
7 keys, one date. -/
theorem c1_witness :
    m5.map Prod.fst = catalogVersions os5 ++ extra_versions ∧
    m5.length = (catalogVersions os5).length + 4 ∧
    ∃ ds, mapDates (dateSheetNames wb5) = .ok ds ∧
      ds.length = (dateSheetNames wb5).length ∧
      ∀ p ∈ m5, p.2.map Prod.fst = ds :=
  c1_amended wb5 m5 rfl os5 rfl (by decide)

/-- C4 amended: each processed daily row's count is added to the derived key
"2.x" when the version string starts with the character '2', and to "1.x"
otherwise (the code tests the first character against '2'; versions starting
with any other character, including '1', are counted under "1.x"). -/
theorem c4_amended (tpl : List Date) (m m' : OsMap) (d : Date) (v : String) (cnt : Int)
    (i0 : Nat) (hal : ∀ p ∈ m, p.2.map Prod.fst = tpl)
    (hrow : procRow m d (v, cnt) = .ok m') (hidx : dateIdx tpl d = some i0)
    (ch : Char) (cs : List Char) (hv : v.data = ch :: cs) :
    countAt m' (if ch = '2' then "2.x" else "1.x") i0
      = countAt m (if ch = '2' then "2.x" else "1.x") i0 + cnt := by
  simp only [procRow] at hrow
  rcases hb1 : bump m v d cnt with e | m1
  · simp only [hb1] at hrow
    exact Except.noConfusion hrow
  · simp only [hb1] at hrow
    rcases hmk : major_key v with e | mk
    · simp only [hmk] at hrow
      exact Except.noConfusion hrow
    · simp only [hmk] at hrow
      rcases hb2 : bump m1 mk d cnt with e | m2
      · simp only [hb2] at hrow
        exact Except.noConfusion hrow
      · simp only [hb2] at hrow
        rcases hck : mc_key v with e | ck
        · simp only [hck] at hrow
          exact Except.noConfusion hrow
        · simp only [hck] at hrow
          have hckc := mc_key_cases hck
          have hvx : isExtra v = false := hckc.2
          have hmk2 : mk = (if ch = '2' then "2.x" else "1.x") := by
            simp only [major_key, hv, Except.ok.injEq] at hmk
            exact hmk.symm
          have hmkx : isExtra mk = true := by
            rw [hmk2]
            split_ifs <;> rfl
          have hal1 := bump_aligned hal hb1
          rcases countAt_bump_self hal1 hb2 with ⟨i1, hd1, h12⟩
          have hi : i1 = i0 := by
            rw [hidx] at hd1
            injection hd1 with hinj
            exact hinj.symm
          have hvne : v ≠ mk := by
            intro he
            rw [he, hmkx] at hvx
            exact Bool.noConfusion hvx
          have hmkck : mk ≠ ck := by
            rcases hckc.1 with rfl | rfl <;> (rw [hmk2]; split_ifs <;> decide)
          rw [← hmk2]
          calc countAt m' mk i0
              = countAt m2 mk i0 := countAt_bump_ne hrow mk hmkck i0
            _ = countAt m1 mk i0 + cnt := by
                rw [h12 i0, hi]
                simp
            _ = countAt m mk i0 + cnt := by
                rw [countAt_bump_ne hb1 mk (Ne.symm hvne) i0]

/-- Witness for C4 (amended): a row ("1.0.0", 7) is counted under "1.x". -/
theorem c4_witness :
    countAt mW' (if ('1' : Char) = '2' then "2.x" else "1.x") 0
      = countAt mW (if ('1' : Char) = '2' then "2.x" else "1.x") 0 + 7 :=
  c4_amended [dD] mW mW' dD "1.0.0" 7 0 (by decide) rfl rfl
    '1' ['.', '0', '.', '0'] rfl

theorem bump_nonneg {m m' : OsMap} {k : String} {d : Date} {c : Int}
    (hc : 0 ≤ c) (hm : NonnegMap m) (h : bump m k d c = .ok m') : NonnegMap m' := by
  rcases bump_ok h with ⟨s, j, hg, hf, rfl⟩
  intro p hp e he
  rcases mem_dictSet hp with h1 | h1
  · exact hm p h1 e he
  · subst h1
    rcases mem_incAt he with ⟨e0, he0, hor⟩
    have h0 : 0 ≤ e0.2 := hm (k, s) (dictGet_mem hg) e0 he0
    rcases hor with rfl | rfl
    · exact h0
    · exact add_nonneg h0 hc

theorem procRow_nonneg {m m' : OsMap} {d : Date} {r : String × Int}
    (hc : 0 ≤ r.2) (hm : NonnegMap m) (h : procRow m d r = .ok m') : NonnegMap m' := by
  simp only [procRow] at h
  rcases hb1 : bump m r.1 d r.2 with e | m1
  · simp only [hb1] at h
    exact Except.noConfusion h
  · simp only [hb1] at h
    rcases hmk : major_key r.1 with e | mk
    · simp only [hmk] at h
      exact Except.noConfusion h
    · simp only [hmk] at h
      rcases hb2 : bump m1 mk d r.2 with e | m2
      · simp only [hb2] at h
        exact Except.noConfusion h
      · simp only [hb2] at h
        rcases hck : mc_key r.1 with e | ck
        · simp only [hck] at h
          exact Except.noConfusion h
        · simp only [hck] at h
          exact bump_nonneg hc (bump_nonneg hc (bump_nonneg hc hm hb1) hb2) h

theorem procRows_nonneg {d : Date} :
    ∀ (rows : List (String × Int)) (m m' : OsMap),
      (∀ r ∈ rows, 0 ≤ r.2) → NonnegMap m → procRows m d rows = .ok m' →
      NonnegMap m' := by
  intro rows
  induction rows with
  | nil =>
    intro m m' _ hm h
    simp only [procRows] at h
    cases h
    exact hm
  | cons r rs ih =>
    intro m m' hr hm h
    simp only [procRows] at h
    rcases hr0 : procRow m d r with e | m1
    · simp only [hr0] at h
      exact Except.noConfusion h
    · simp only [hr0] at h
      exact ih m1 m' (fun x hx => hr x (List.mem_cons_of_mem r hx))
        (procRow_nonneg (hr r (List.mem_cons_self r rs)) hm hr0) h

theorem procSheets_nonneg {wb : Workbook} :
    ∀ (names : List String) (m m' : OsMap),
      (∀ n ∈ names, ∀ sh, sheet_by_name wb n = some sh →
        ∀ r ∈ sh.rows.drop 2, 0 ≤ r.2) →
      NonnegMap m → procSheetsByName wb m names = .ok m' → NonnegMap m' := by
  intro names
  induction names with
  | nil =>
    intro m m' _ hm h
    simp only [procSheetsByName] at h
    cases h
    exact hm
  | cons n ns ih =>
    intro m m' hr hm h
    simp only [procSheetsByName] at h
    rcases hs : sheet_by_name wb n with _ | sh
    · simp only [hs] at h
      exact Except.noConfusion h
    · simp only [hs] at h
      rcases hd : get_date n with e | d
      · simp only [hd] at h
        exact Except.noConfusion h
      · simp only [hd] at h
        rcases hpr : procRows m d (sh.rows.drop 2) with e | m1
        · simp only [hpr] at h
          exact Except.noConfusion h
        · simp only [hpr] at h
          have hm1 : NonnegMap m1 :=
            procRows_nonneg _ m m1 (hr n (List.mem_cons_self n ns) sh hs) hm hpr
          exact ih m1 m' (fun x hx => hr x (List.mem_cons_of_mem n hx)) hm1 h

theorem countAt_bump_step {m m' : OsMap} {k : String} {d : Date} {c : Int}
    (h : bump m k d c = .ok m') (i : Nat) :
    countAt m' k i = countAt m k i ∨ countAt m' k i = countAt m k i + c := by
  rcases bump_ok h with ⟨s, j, hg, hf, rfl⟩
  have hj : j < s.length := findDateIdx_lt hf
  simp only [countAt, dictGet_dictSet_self _ hg, hg]
  rw [cellAt_incAt s j c hj i]
  by_cases hij : i = j
  · right
    rw [if_pos hij]
  · left
    rw [if_neg hij]

theorem procRow_cell_step (m : OsMap) (d : Date) (v : String) (c : Int) (m' : OsMap)
    (h : procRow m d (v, c) = .ok m') (k : String) (i : Nat) :
    countAt m' k i = countAt m k i ∨ countAt m' k i = countAt m k i + c := by
  simp only [procRow] at h
  rcases hb1 : bump m v d c with e | m1
  · simp only [hb1] at h
    exact Except.noConfusion h
  · simp only [hb1] at h
    rcases hmk : major_key v with e | mk
    · simp only [hmk] at h
      exact Except.noConfusion h
    · simp only [hmk] at h
      rcases hb2 : bump m1 mk d c with e | m2
      · simp only [hb2] at h
        exact Except.noConfusion h
      · simp only [hb2] at h
        rcases hck : mc_key v with e | ck
        · simp only [hck] at h
          exact Except.noConfusion h
        · simp only [hck] at h
          have hmkc := major_key_cases hmk
          have hckc := mc_key_cases hck
          have hvx : isExtra v = false := hckc.2
          have hvne : ∀ x ∈ extra_versions, v ≠ x := by
            intro x hx he
            subst he
            rw [(isExtra_iff v).mpr hx] at hvx
            exact Bool.noConfusion hvx
          have hvmk : v ≠ mk := by
            rcases hmkc.1 with rfl | rfl
            · exact hvne "1.x" (by decide)
            · exact hvne "2.x" (by decide)
          have hvck : v ≠ ck := by
            rcases hckc.1 with rfl | rfl
            · exact hvne "mc-capable" (by decide)
            · exact hvne "non-mc-capable" (by decide)
          have hmkck : mk ≠ ck := by
            rcases hmkc.1 with rfl | rfl <;> rcases hckc.1 with rfl | rfl <;> decide
          by_cases hk1 : k = v
          · subst hk1
            rw [countAt_bump_ne h k hvck i, countAt_bump_ne hb2 k hvmk i]
            exact countAt_bump_step hb1 i
          · by_cases hk2 : k = mk
            · subst hk2
              rw [countAt_bump_ne h k hmkck i]
              rcases countAt_bump_step hb2 i with h' | h'
              · left
                rw [h', countAt_bump_ne hb1 k hk1 i]
              · right
                rw [h', countAt_bump_ne hb1 k hk1 i]
            · by_cases hk3 : k = ck
              · subst hk3
                rcases countAt_bump_step h i with h' | h'
                · left
                  rw [h', countAt_bump_ne hb2 k hk2 i, countAt_bump_ne hb1 k hk1 i]
                · right
                  rw [h', countAt_bump_ne hb2 k hk2 i, countAt_bump_ne hb1 k hk1 i]
              · left
                rw [countAt_bump_ne h k hk3 i, countAt_bump_ne hb2 k hk2 i,
                    countAt_bump_ne hb1 k hk1 i]

/-- C9 amended: counts are integers accumulated by summation from a
zero-initialized template; each processing step adds the row count to a cell
or leaves it unchanged (never overwrites), and when every data-row count in
the workbook is non-negative, every resulting count is non-negative. The
non-negativity clause needs that hypothesis: see the counterexample. -/
theorem c9_amended :
    (∀ (wb : Workbook) (m : OsMap), load_counts wb = .ok m →
      (∀ n ∈ dateSheetNames wb, ∀ sh, sheet_by_name wb n = some sh →
        ∀ r ∈ sh.rows.drop 2, 0 ≤ r.2) →
      ∀ p ∈ m, ∀ e ∈ p.2, 0 ≤ e.2) ∧
    (∀ (m : OsMap) (d : Date) (v : String) (c : Int) (m' : OsMap),
      procRow m d (v, c) = .ok m' → ∀ k i,
        countAt m' k i = countAt m k i ∨ countAt m' k i = countAt m k i + c) ∧
    (∀ (ds : List Date) (cat : List String),
      ∀ p ∈ initMap (ds.map (fun d => (d, (0 : Int)))) cat, ∀ e ∈ p.2, e.2 = 0) := by
  refine ⟨?_, procRow_cell_step, ?_⟩
  · intro wb m h hrows
    rcases load_counts_ok h with ⟨ds, osh, hd, hs, hp⟩
    have hz : NonnegMap (initMap (ds.map (fun d => (d, (0 : Int))))
        (catalogVersions osh)) := by
      intro p hp0 e he
      rw [initMap_values _ _ p hp0] at he
      rcases List.mem_map.mp he with ⟨d0, _, rfl⟩
      exact le_refl 0
    exact procSheets_nonneg (dateSheetNames wb) _ m hrows hz hp
  · intro ds cat p hp0 e he
    rw [initMap_values _ _ p hp0] at he
    rcases List.mem_map.mp he with ⟨d0, _, rfl⟩
    rfl

/-- Witness for C9 (amended): one row step on a concrete map either leaves the
cell alone or adds the row count. -/
theorem c9_witness :
    countAt mW' "1.0.0" 0 = countAt mW "1.0.0" 0 ∨
    countAt mW' "1.0.0" 0 = countAt mW "1.0.0" 0 + 7 :=
  c9_amended.2.1 mW dD "1.0.0" 7 mW' rfl "1.0.0" 0

theorem mc_key_ok_parse {v ck : String} (h : mc_key v = .ok ck) :
    (parseSemver v).isSome := by
  cases hp : parseSemver v with
  | none =>
    simp only [mc_key, hp] at h
    exact Except.noConfusion h
  | some t => simp

theorem procRow_ok_parse {m m' : OsMap} {d : Date} {r : String × Int}
    (h : procRow m d r = .ok m') : (parseSemver r.1).isSome := by
  simp only [procRow] at h
  rcases hb1 : bump m r.1 d r.2 with e | m1
  · simp only [hb1] at h
    exact Except.noConfusion h
  · simp only [hb1] at h
    rcases hmk : major_key r.1 with e | mk
    · simp only [hmk] at h
      exact Except.noConfusion h
    · simp only [hmk] at h
      rcases hb2 : bump m1 mk d r.2 with e | m2
      · simp only [hb2] at h
        exact Except.noConfusion h
      · simp only [hb2] at h
        rcases hck : mc_key r.1 with e | ck
        · simp only [hck] at h
          exact Except.noConfusion h
        · exact mc_key_ok_parse hck

theorem procRow_ok_mem {m m' : OsMap} {d : Date} {r : String × Int}
    (h : procRow m d r = .ok m') : dictMem m r.1 = true := by
  simp only [procRow] at h
  rcases hb1 : bump m r.1 d r.2 with e | m1
  · simp only [hb1] at h
    exact Except.noConfusion h
  · rcases bump_ok hb1 with ⟨s, j, hg, hf, _⟩
    exact (dictMem_iff_get m r.1).mpr ⟨s, hg⟩

theorem procRows_all {d : Date} :
    ∀ (rows : List (String × Int)) (m m' : OsMap), procRows m d rows = .ok m' →
      ∀ r ∈ rows, ∃ st st', st.map Prod.fst = m.map Prod.fst ∧
        procRow st d r = .ok st' := by
  intro rows
  induction rows with
  | nil =>
    intro m m' _ r hr
    simp at hr
  | cons r0 rs ih =>
    intro m m' h r hr
    simp only [procRows] at h
    rcases hr0 : procRow m d r0 with e | m1
    · simp only [hr0] at h
      exact Except.noConfusion h
    · simp only [hr0] at h
      rcases List.mem_cons.mp hr with rfl | hmem
      · exact ⟨m, m1, rfl, hr0⟩
      · rcases ih m1 m' h r hmem with ⟨st, st', hkeys, hst⟩
        exact ⟨st, st', by rw [hkeys, procRow_keys hr0], hst⟩

theorem procSheets_all {wb : Workbook} :
    ∀ (names : List String) (m m' : OsMap), procSheetsByName wb m names = .ok m' →
      ∀ n ∈ names, ∃ sh d, sheet_by_name wb n = some sh ∧ get_date n = .ok d ∧
        ∀ r ∈ sh.rows.drop 2, ∃ st st', st.map Prod.fst = m.map Prod.fst ∧
          procRow st d r = .ok st' := by
  intro names
  induction names with
  | nil =>
    intro m m' _ n hn
    simp at hn
  | cons n0 ns ih =>
    intro m m' h n hn
    simp only [procSheetsByName] at h
    rcases hs : sheet_by_name wb n0 with _ | sh0
    · simp only [hs] at h
      exact Except.noConfusion h
    · simp only [hs] at h
      rcases hd : get_date n0 with e | d0
      · simp only [hd] at h
        exact Except.noConfusion h
      · simp only [hd] at h
        rcases hpr : procRows m d0 (sh0.rows.drop 2) with e | m1
        · simp only [hpr] at h
          exact Except.noConfusion h
        · simp only [hpr] at h
          rcases List.mem_cons.mp hn with rfl | hmem
          · exact ⟨sh0, d0, hs, hd, procRows_all _ m m1 hpr⟩
          · rcases ih m1 m' h n hmem with ⟨sh, d, hsh, hgd, hrows⟩
            refine ⟨sh, d, hsh, hgd, fun r hr => ?_⟩
            rcases hrows r hr with ⟨st, st', hkeys, hst⟩
            exact ⟨st, st', by rw [hkeys, procRows_keys _ m m1 hpr], hst⟩

theorem bump_ok_of {tpl : List Date} {m : OsMap} {k : String} {d : Date} {i0 : Nat}
    (c : Int) (hal : ∀ p ∈ m, p.2.map Prod.fst = tpl) (hd : dateIdx tpl d = some i0)
    (hmem : dictMem m k = true) : ∃ m', bump m k d c = .ok m' := by
  rcases (dictMem_iff_get m k).mp hmem with ⟨s, hg⟩
  have hs : s.map Prod.fst = tpl := hal (k, s) (dictGet_mem hg)
  have hf : findDateIdx s d = some i0 := by rw [findDateIdx_eq_dateIdx, hs, hd]
  exact ⟨dictSet m k (incAt s i0 c), by simp only [bump, hg, hf]⟩

/-- C6 amended: a daily row whose version string is nonempty, present in the
mapping, and not valid semver makes the aggregator fail with ParseError at the
capability predicate; and whenever `load_counts` returns a mapping, every
processed data row's version did parse as semver, so no row is ever silently
assigned to a capability bucket. (The empty version string and versions absent
from the mapping instead fail earlier, with IndexError and KeyError: see the
counterexample.) -/
theorem c6_amended :
    (∀ (tpl : List Date) (m : OsMap) (d : Date) (v : String) (c : Int) (i0 : Nat),
      (∀ p ∈ m, p.2.map Prod.fst = tpl) → dateIdx tpl d = some i0 →
      dictMem m v = true → (∀ k ∈ extra_versions, dictMem m k = true) →
      v.data ≠ [] → parseSemver v = none →
      procRow m d (v, c) = .error (.parseError v)) ∧
    (∀ (wb : Workbook) (m : OsMap), load_counts wb = .ok m →
      ∀ n ∈ dateSheetNames wb, ∀ sh, sheet_by_name wb n = some sh →
      ∀ r ∈ sh.rows.drop 2, (parseSemver r.1).isSome) := by
  constructor
  · intro tpl m d v c i0 hal hd hv hex hne hpar
    rcases bump_ok_of c hal hd hv with ⟨m1, hb1⟩
    rcases hvd : v.data with _ | ⟨ch, cs⟩
    · exact absurd hvd hne
    · have hmk : major_key v = .ok (if ch = '2' then "2.x" else "1.x") := by
        simp only [major_key, hvd]
      have hal1 := bump_aligned hal hb1
      have hkeys1 := bump_keys hb1
      have hmem1 : dictMem m1 (if ch = '2' then "2.x" else "1.x") = true := by
        have hx : (if ch = '2' then "2.x" else "1.x") ∈ extra_versions := by
          split_ifs <;> decide
        have hm0 := hex _ hx
        rw [dictMem_iff_mem_keys, hkeys1]
        exact (dictMem_iff_mem_keys m _).mp hm0
      rcases bump_ok_of c hal1 hd hmem1 with ⟨m2, hb2⟩
      have hmc : mc_key v = .error (.parseError v) := by
        simp only [mc_key, hpar]
      simp only [procRow, hb1, hmk, hb2, hmc]
  · intro wb m h n hn sh hsh r hr
    rcases load_counts_ok h with ⟨ds, osh, hd, hs, hp⟩
    rcases procSheets_all _ _ _ hp n hn with ⟨sh', d', hsh', hgd, hrows⟩
    rw [hsh] at hsh'
    injection hsh' with he
    subst he
    rcases hrows r hr with ⟨st, st', hkeys, hst⟩
    exact procRow_ok_parse hst

/-- Witness for C6 (amended): a nonempty non-semver version present in the
mapping fails with ParseError. -/
theorem c6_witness :
    procRow mB dD ("badver", 2) = .error (.parseError "badver") :=
  c6_amended.1 [dD] mB dD "badver" 2 0 (by decide) rfl rfl (by decide) (by decide) rfl

/-- C7 amended: a daily row whose version is absent from the mapping's keys
(the catalog versions together with the four derived keys) makes the
aggregator fail immediately with a KeyError, a LookupError subclass; and
whenever `load_counts` returns a mapping, every processed data row's version
was among the catalog versions or the derived keys, so no counts are silently
dropped. (A row naming a derived key absent from the catalog is not caught by
this lookup: see the counterexample, where it aborts with ParseError instead.) -/
theorem c7_amended :
    (∀ (m : OsMap) (d : Date) (v : String) (c : Int),
      dictGet m v = none → procRow m d (v, c) = .error (.lookupError v)) ∧
    (∀ (wb : Workbook) (m : OsMap), load_counts wb = .ok m →
      ∀ n ∈ dateSheetNames wb, ∀ sh, sheet_by_name wb n = some sh →
      ∀ r ∈ sh.rows.drop 2, ∀ osh, sheet_by_name wb "OSVer" = some osh →
        r.1 ∈ catalogVersions osh ∨ r.1 ∈ extra_versions) := by
  constructor
  · intro m d v c hg
    simp only [procRow, bump, hg]
  · intro wb m h n hn sh hsh r hr osh hosh
    rcases load_counts_ok h with ⟨ds, osh', hd, hs, hp⟩
    rw [hosh] at hs
    injection hs with he
    subst he
    rcases procSheets_all _ _ _ hp n hn with ⟨sh', d', hsh', hgd, hrows⟩
    rw [hsh] at hsh'
    injection hsh' with he2
    subst he2
    rcases hrows r hr with ⟨st, st', hkeys, hst⟩
    have hmem := procRow_ok_mem hst
    rw [dictMem_iff_mem_keys, hkeys, initMap] at hmem
    rcases (foldIns_mem _ _ _ _).mp hmem with h3 | h3
    · simp at h3
    · exact List.mem_append.mp h3

/-- Witness for C7 (amended): a version not in the (empty) mapping raises the
KeyError immediately. -/
theorem c7_witness :
    procRow [] dD ("2.0.0", 1) = .error (.lookupError "2.0.0") :=
  c7_amended.1 [] dD "2.0.0" 1 rfl

theorem toFinset_card_lt_of_not_nodup {l : List String} (h : ¬ l.Nodup) :
    l.toFinset.card < l.length := by
  induction l with
  | nil => simp at h
  | cons a l ih =>
    by_cases ha : a ∈ l
    · have he : (a :: l).toFinset = l.toFinset := by
        rw [List.toFinset_cons]
        exact Finset.insert_eq_self.mpr (List.mem_toFinset.mpr ha)
      have h2 := List.toFinset_card_le l
      rw [he]
      simp only [List.length_cons]
      omega
    · have hnd : ¬ l.Nodup := fun hnd0 => h (List.nodup_cons.mpr ⟨ha, hnd0⟩)
      have h3 : ((a :: l).toFinset).card ≤ l.toFinset.card + 1 := by
        rw [List.toFinset_cons]
        exact Finset.card_insert_le _ _
      have h4 := ih hnd
      simp only [List.length_cons]
      omega

theorem initMap_length_lt (tplS : Series) (cat : List String)
    (h : ¬ (cat ++ extra_versions).Nodup) :
    (initMap tplS cat).length < cat.length + 4 := by
  have hnd := initMap_keys_nodup tplS cat
  have hsub : ((initMap tplS cat).map Prod.fst).toFinset
      = (cat ++ extra_versions).toFinset := by
    ext x
    simp only [List.mem_toFinset, initMap, foldIns_mem]
    simp
  have h1 : ((initMap tplS cat).map Prod.fst).toFinset.card
      = ((initMap tplS cat).map Prod.fst).length := by
    rw [List.toFinset_card_of_nodup hnd]
  have h2 := toFinset_card_lt_of_not_nodup h
  have h3 : ((initMap tplS cat).map Prod.fst).length = (initMap tplS cat).length :=
    List.length_map _ _
  have h4 : (cat ++ extra_versions).length = cat.length + 4 := by
    simp [extra_versions]
  have h5 : ((initMap tplS cat).map Prod.fst).toFinset.card
      = (cat ++ extra_versions).toFinset.card := by rw [hsub]
  omega

/-- C10: when the catalog sheet repeats a version or lists one of the four
derived keys, `load_counts` does not fail on that account: the later dict
insertion silently replaces the earlier zero template, the mapping ends up
with fewer than V + 4 keys, and the colliding name owns a single shared
series — on the concrete workbook the catalog entry "1.x" and the derived
major-version key are one key whose series receives the derived counts. -/
theorem c10_collisions :
    (∀ (tplS : Series) (cat : List String), ¬ (cat ++ extra_versions).Nodup →
      (initMap tplS cat).length < cat.length + 4) ∧
    (sheet_by_name wb10 "OSVer" = some os10 ∧
      ¬ (catalogVersions os10 ++ extra_versions).Nodup ∧
      load_counts wb10 = .ok m10 ∧
      m10.length = 5 ∧ (catalogVersions os10).length + 4 = 7 ∧
      "1.x" ∈ catalogVersions os10 ∧ dictGet m10 "1.x" = some [(dD, 5)]) := by
  refine ⟨initMap_length_lt, rfl, by decide, rfl, rfl, rfl, by decide, rfl⟩

/-- Witness for C10: a duplicated two-element catalog yields fewer than 2 + 4
keys. -/
theorem c10_witness : (initMap [] ["1.0.0", "1.0.0"]).length < 2 + 4 :=
  c10_collisions.1 [] ["1.0.0", "1.0.0"] (by decide)

theorem isDigit_digitChar (k : Nat) : (digitChar k).isDigit = true := by
  rw [digitChar]
  split_ifs <;> rfl

theorem charVal_digitChar {k : Nat} (hk : k ≤ 9) : charVal (digitChar k) = k := by
  interval_cases k <;> rfl

theorem matchYear_pad4 {y : Nat} (hy : y ≤ 9999) (rest : List Char) :
    matchYear (pad4 y ++ rest) = some (y, rest) := by
  have h1 : y / 1000 ≤ 9 := by omega
  have h2 : y / 100 % 10 ≤ 9 := by omega
  have h3 : y / 10 % 10 ≤ 9 := by omega
  have h4 : y % 10 ≤ 9 := by omega
  show matchYear (digitChar (y / 1000) :: digitChar (y / 100 % 10) ::
      digitChar (y / 10 % 10) :: digitChar (y % 10) :: rest) = some (y, rest)
  simp only [matchYear]
  rw [if_pos ⟨isDigit_digitChar _, isDigit_digitChar _, isDigit_digitChar _,
    isDigit_digitChar _⟩]
  rw [charVal_digitChar h1, charVal_digitChar h2, charVal_digitChar h3,
    charVal_digitChar h4]
  have hval : 1000 * (y / 1000) + 100 * (y / 100 % 10) + 10 * (y / 10 % 10) + y % 10
      = y := by omega
  rw [hval]

theorem monthAlts_head (mo : Nat) (rest : List Char) (h1 : 1 ≤ mo) (h2 : mo ≤ 12) :
    ∃ t, monthAlts (pad2 mo ++ rest) = (mo, rest) :: t := by
  interval_cases mo <;> exact ⟨_, rfl⟩

theorem dayAlts_head (dy : Nat) (rest : List Char) (h1 : 1 ≤ dy) (h2 : dy ≤ 31) :
    ∃ t, dayAlts (pad2 dy ++ rest) = (dy, rest) :: t := by
  interval_cases dy <;> exact ⟨_, rfl⟩

theorem searchMD_parse (mo dy : Nat) (h1 : 1 ≤ mo) (h2 : mo ≤ 12) (h3 : 1 ≤ dy)
    (h4 : dy ≤ 31) :
    searchMD (monthAlts (pad2 mo ++ pad2 dy)) = some (mo, dy, []) := by
  rcases dayAlts_head dy [] h3 h4 with ⟨t', ht'⟩
  rw [List.append_nil] at ht'
  rcases monthAlts_head mo (pad2 dy) h1 h2 with ⟨t, ht⟩
  rw [ht]
  simp only [searchMD, ht', List.head?_cons]

theorem daysInMonth_le_31 (y mo : Nat) : daysInMonth y mo ≤ 31 := by
  rw [daysInMonth]
  split_ifs <;> omega

theorem get_date_roundtrip (y mo dy : Nat) (hy1 : 1 ≤ y) (hy2 : y ≤ 9999)
    (hm1 : 1 ≤ mo) (hm2 : mo ≤ 12) (hd1 : 1 ≤ dy) (hd2 : dy ≤ daysInMonth y mo) :
    get_date (fmtYMD y mo dy) = .ok ⟨y, mo, dy⟩ := by
  have hd31 : dy ≤ 31 := le_trans hd2 (daysInMonth_le_31 y mo)
  have hdata : (fmtYMD y mo dy).data = pad4 y ++ (pad2 mo ++ pad2 dy) := rfl
  have hmy := matchYear_pad4 hy2 (pad2 mo ++ pad2 dy)
  have hmd := searchMD_parse mo dy hm1 hm2 hd1 hd31
  simp only [get_date, hdata, regexYMD, hmy, hmd, true_and]
  rw [if_pos ⟨hy1, hy2, hm1, hm2, hd1, hd2⟩]

theorem get_date_error (s : String) :
    (∃ dt, get_date s = .ok dt) ∨ get_date s = .error (.formatError s) := by
  cases h : regexYMD s.data with
  | none =>
    right
    simp only [get_date, h]
  | some q =>
    obtain ⟨y, mo, dy, rest⟩ := q
    by_cases hc : rest = [] ∧ 1 ≤ y ∧ y ≤ 9999 ∧ 1 ≤ mo ∧ mo ≤ 12 ∧ 1 ≤ dy ∧
        dy ≤ daysInMonth y mo
    · left
      exact ⟨⟨y, mo, dy⟩, by simp only [get_date, h]; rw [if_pos hc]⟩
    · right
      simp only [get_date, h]
      rw [if_neg hc]

theorem altM1_pre {cs : List Char} {q : Nat × List Char} (h : altM1 cs = some q) :
    ∃ pre, cs = pre ++ q.2 ∧ ∀ c ∈ pre, c.isDigit := by
  cases cs with
  | nil => simp [altM1] at h
  | cons c1 cs1 =>
    cases cs1 with
    | nil => simp [altM1] at h
    | cons c2 rest =>
      rw [altM1] at h
      by_cases hc : c1 = '1' ∧ c2.isDigit ∧ charVal c2 ≤ 2
      · rw [if_pos hc] at h
        injection h with h
        refine ⟨[c1, c2], by rw [← h]; rfl, ?_⟩
        intro x hx
        simp only [List.mem_cons, List.not_mem_nil, or_false] at hx
        rcases hx with rfl | rfl
        · rw [hc.1]
          rfl
        · exact hc.2.1
      · rw [if_neg hc] at h
        exact Option.noConfusion h

theorem altM2_pre {cs : List Char} {q : Nat × List Char} (h : altM2 cs = some q) :
    ∃ pre, cs = pre ++ q.2 ∧ ∀ c ∈ pre, c.isDigit := by
  cases cs with
  | nil => simp [altM2] at h
  | cons c1 cs1 =>
    cases cs1 with
    | nil => simp [altM2] at h
    | cons c2 rest =>
      rw [altM2] at h
      by_cases hc : c1 = '0' ∧ c2.isDigit ∧ 1 ≤ charVal c2
      · rw [if_pos hc] at h
        injection h with h
        refine ⟨[c1, c2], by rw [← h]; rfl, ?_⟩
        intro x hx
        simp only [List.mem_cons, List.not_mem_nil, or_false] at hx
        rcases hx with rfl | rfl
        · rw [hc.1]
          rfl
        · exact hc.2.1
      · rw [if_neg hc] at h
        exact Option.noConfusion h

theorem altM3_pre {cs : List Char} {q : Nat × List Char} (h : altM3 cs = some q) :
    ∃ pre, cs = pre ++ q.2 ∧ ∀ c ∈ pre, c.isDigit := by
  cases cs with
  | nil => simp [altM3] at h
  | cons c1 rest =>
    rw [altM3] at h
    by_cases hc : c1.isDigit ∧ 1 ≤ charVal c1
    · rw [if_pos hc] at h
      injection h with h
      refine ⟨[c1], by rw [← h]; rfl, ?_⟩
      intro x hx
      simp only [List.mem_singleton] at hx
      subst hx
      exact hc.1
    · rw [if_neg hc] at h
      exact Option.noConfusion h

theorem altD1_pre {cs : List Char} {q : Nat × List Char} (h : altD1 cs = some q) :
    ∃ pre, cs = pre ++ q.2 ∧ ∀ c ∈ pre, c.isDigit := by
  cases cs with
  | nil => simp [altD1] at h
  | cons c1 cs1 =>
    cases cs1 with
    | nil => simp [altD1] at h
    | cons c2 rest =>
      rw [altD1] at h
      by_cases hc : c1 = '3' ∧ c2.isDigit ∧ charVal c2 ≤ 1
      · rw [if_pos hc] at h
        injection h with h
        refine ⟨[c1, c2], by rw [← h]; rfl, ?_⟩
        intro x hx
        simp only [List.mem_cons, List.not_mem_nil, or_false] at hx
        rcases hx with rfl | rfl
        · rw [hc.1]
          rfl
        · exact hc.2.1
      · rw [if_neg hc] at h
        exact Option.noConfusion h

theorem altD2_pre {cs : List Char} {q : Nat × List Char} (h : altD2 cs = some q) :
    ∃ pre, cs = pre ++ q.2 ∧ ∀ c ∈ pre, c.isDigit := by
  cases cs with
  | nil => simp [altD2] at h
  | cons c1 cs1 =>
    cases cs1 with
    | nil => simp [altD2] at h
    | cons c2 rest =>
      rw [altD2] at h
      by_cases hc : c1.isDigit ∧ 1 ≤ charVal c1 ∧ charVal c1 ≤ 2 ∧ c2.isDigit
      · rw [if_pos hc] at h
        injection h with h
        refine ⟨[c1, c2], by rw [← h]; rfl, ?_⟩
        intro x hx
        simp only [List.mem_cons, List.not_mem_nil, or_false] at hx
        rcases hx with rfl | rfl
        · exact hc.1
        · exact hc.2.2.2
      · rw [if_neg hc] at h
        exact Option.noConfusion h

theorem altD3_pre {cs : List Char} {q : Nat × List Char} (h : altD3 cs = some q) :
    ∃ pre, cs = pre ++ q.2 ∧ ∀ c ∈ pre, c.isDigit := by
  cases cs with
  | nil => simp [altD3] at h
  | cons c1 cs1 =>
    cases cs1 with
    | nil => simp [altD3] at h
    | cons c2 rest =>
      rw [altD3] at h
      by_cases hc : c1 = '0' ∧ c2.isDigit ∧ 1 ≤ charVal c2
      · rw [if_pos hc] at h
        injection h with h
        refine ⟨[c1, c2], by rw [← h]; rfl, ?_⟩
        intro x hx
        simp only [List.mem_cons, List.not_mem_nil, or_false] at hx
        rcases hx with rfl | rfl
        · rw [hc.1]
          rfl
        · exact hc.2.1
      · rw [if_neg hc] at h
        exact Option.noConfusion h

theorem altD4_pre {cs : List Char} {q : Nat × List Char} (h : altD4 cs = some q) :
    ∃ pre, cs = pre ++ q.2 ∧ ∀ c ∈ pre, c.isDigit := by
  cases cs with
  | nil => simp [altD4] at h
  | cons c1 rest =>
    rw [altD4] at h
    by_cases hc : c1.isDigit ∧ 1 ≤ charVal c1
    · rw [if_pos hc] at h
      injection h with h
      refine ⟨[c1], by rw [← h]; rfl, ?_⟩
      intro x hx
      simp only [List.mem_singleton] at hx
      subst hx
      exact hc.1
    · rw [if_neg hc] at h
      exact Option.noConfusion h

theorem altD5_pre {cs : List Char} {q : Nat × List Char} (h : altD5 cs = some q) :
    ∃ pre, cs = pre ++ q.2 ∧ ∀ c ∈ pre, c.isDigit ∨ c = ' ' := by
  cases cs with
  | nil => simp [altD5] at h
  | cons c1 cs1 =>
    cases cs1 with
    | nil => simp [altD5] at h
    | cons c2 rest =>
      rw [altD5] at h
      by_cases hc : c1 = ' ' ∧ c2.isDigit ∧ 1 ≤ charVal c2
      · rw [if_pos hc] at h
        injection h with h
        refine ⟨[c1, c2], by rw [← h]; rfl, ?_⟩
        intro x hx
        simp only [List.mem_cons, List.not_mem_nil, or_false] at hx
        rcases hx with rfl | rfl
        · exact Or.inr hc.1
        · exact Or.inl hc.2.1
      · rw [if_neg hc] at h
        exact Option.noConfusion h

theorem monthAlts_pre {cs : List Char} {q : Nat × List Char} (h : q ∈ monthAlts cs) :
    ∃ pre, cs = pre ++ q.2 ∧ ∀ c ∈ pre, c.isDigit := by
  rw [monthAlts] at h
  rcases List.mem_filterMap.mp h with ⟨a, ha, hq⟩
  simp only [id] at hq
  subst hq
  simp only [List.mem_cons, List.not_mem_nil, or_false] at ha
  rcases ha with ha | ha | ha
  · exact altM1_pre ha.symm
  · exact altM2_pre ha.symm
  · exact altM3_pre ha.symm

theorem dayAlts_pre {cs : List Char} {q : Nat × List Char} (h : q ∈ dayAlts cs) :
    ∃ pre, cs = pre ++ q.2 ∧ ∀ c ∈ pre, c.isDigit ∨ c = ' ' := by
  rw [dayAlts] at h
  rcases List.mem_filterMap.mp h with ⟨a, ha, hq⟩
  simp only [id] at hq
  subst hq
  simp only [List.mem_cons, List.not_mem_nil, or_false] at ha
  rcases ha with ha | ha | ha | ha | ha
  · rcases altD1_pre ha.symm with ⟨pre, he, hd⟩
    exact ⟨pre, he, fun c hc => Or.inl (hd c hc)⟩
  · rcases altD2_pre ha.symm with ⟨pre, he, hd⟩
    exact ⟨pre, he, fun c hc => Or.inl (hd c hc)⟩
  · rcases altD3_pre ha.symm with ⟨pre, he, hd⟩
    exact ⟨pre, he, fun c hc => Or.inl (hd c hc)⟩
  · rcases altD4_pre ha.symm with ⟨pre, he, hd⟩
    exact ⟨pre, he, fun c hc => Or.inl (hd c hc)⟩
  · exact altD5_pre ha.symm

theorem matchYear_pre {cs r : List Char} {y : Nat} (h : matchYear cs = some (y, r)) :
    ∃ pre, cs = pre ++ r ∧ ∀ c ∈ pre, c.isDigit := by
  cases cs with
  | nil => simp [matchYear] at h
  | cons a cs1 =>
    cases cs1 with
    | nil => simp [matchYear] at h
    | cons b cs2 =>
      cases cs2 with
      | nil => simp [matchYear] at h
      | cons c cs3 =>
        cases cs3 with
        | nil => simp [matchYear] at h
        | cons d rest =>
          rw [matchYear] at h
          by_cases hd : a.isDigit ∧ b.isDigit ∧ c.isDigit ∧ d.isDigit
          · rw [if_pos hd] at h
            injection h with h
            injection h with h1 h2
            refine ⟨[a, b, c, d], by rw [h2]; rfl, ?_⟩
            intro x hx
            simp only [List.mem_cons, List.not_mem_nil, or_false] at hx
            rcases hx with rfl | rfl | rfl | rfl
            · exact hd.1
            · exact hd.2.1
            · exact hd.2.2.1
            · exact hd.2.2.2
          · rw [if_neg hd] at h
            exact Option.noConfusion h

theorem searchMD_inv {l : List (Nat × List Char)} {mo dy : Nat} {rest : List Char}
    (h : searchMD l = some (mo, dy, rest)) :
    ∃ r, (mo, r) ∈ l ∧ (dy, rest) ∈ dayAlts r := by
  induction l with
  | nil => simp [searchMD] at h
  | cons q t ih =>
    obtain ⟨mo0, r0⟩ := q
    rw [searchMD] at h
    cases hh : (dayAlts r0).head? with
    | none =>
      simp only [hh] at h
      rcases ih h with ⟨r, hmem, hday⟩
      exact ⟨r, List.mem_cons_of_mem _ hmem, hday⟩
    | some p =>
      obtain ⟨dy0, rest0⟩ := p
      simp only [hh] at h
      simp only [Option.some.injEq, Prod.mk.injEq] at h
      obtain ⟨h1, h2, h3⟩ := h
      subst h1
      subst h2
      subst h3
      refine ⟨r0, List.mem_cons_self _ _, ?_⟩
      cases hda : dayAlts r0 with
      | nil =>
        rw [hda] at hh
        simp at hh
      | cons x xs =>
        rw [hda] at hh
        simp only [List.head?_cons, Option.some.injEq] at hh
        rw [← hh]
        exact List.mem_cons_self _ _

theorem regexYMD_inv {cs : List Char} {y mo dy : Nat} {rest : List Char}
    (h : regexYMD cs = some (y, mo, dy, rest)) :
    ∃ r1 r2, matchYear cs = some (y, r1) ∧ (mo, r2) ∈ monthAlts r1 ∧
      (dy, rest) ∈ dayAlts r2 := by
  rw [regexYMD] at h
  cases hy : matchYear cs with
  | none =>
    simp only [hy] at h
    exact Option.noConfusion h
  | some p =>
    obtain ⟨y0, r1⟩ := p
    simp only [hy] at h
    cases hmd : searchMD (monthAlts r1) with
    | none =>
      simp only [hmd] at h
      exact Option.noConfusion h
    | some p2 =>
      obtain ⟨mo0, dy0, rest0⟩ := p2
      simp only [hmd] at h
      simp only [Option.some.injEq, Prod.mk.injEq] at h
      obtain ⟨h1, h2, h3, h4⟩ := h
      subst h1
      subst h2
      subst h3
      subst h4
      rcases searchMD_inv hmd with ⟨r2, hmem, hday⟩
      exact ⟨r1, r2, rfl, hmem, hday⟩

theorem get_date_ok_shape {s : String} {dt : Date} (h : get_date s = .ok dt) :
    (∀ c ∈ s.data, c.isDigit ∨ c = ' ') ∧ 1 ≤ dt.year ∧ dt.year ≤ 9999 ∧
      1 ≤ dt.month ∧ dt.month ≤ 12 ∧ 1 ≤ dt.day ∧
      dt.day ≤ daysInMonth dt.year dt.month := by
  cases hr : regexYMD s.data with
  | none =>
    simp only [get_date, hr] at h
    exact Except.noConfusion h
  | some q =>
    obtain ⟨y, mo, dy, rest⟩ := q
    simp only [get_date, hr] at h
    by_cases hc : rest = [] ∧ 1 ≤ y ∧ y ≤ 9999 ∧ 1 ≤ mo ∧ mo ≤ 12 ∧ 1 ≤ dy ∧
        dy ≤ daysInMonth y mo
    · rw [if_pos hc] at h
      injection h with h
      subst h
      obtain ⟨hrest, hy1, hy2, hm1, hm2, hdy1, hdy2⟩ := hc
      subst hrest
      refine ⟨?_, hy1, hy2, hm1, hm2, hdy1, hdy2⟩
      rcases regexYMD_inv hr with ⟨r1, r2, hmy, hmm, hdd⟩
      rcases matchYear_pre hmy with ⟨p1, he1, hdig1⟩
      rcases monthAlts_pre hmm with ⟨p2, he2, hdig2⟩
      rcases dayAlts_pre hdd with ⟨p3, he3, hdig3⟩
      intro x hx
      rw [he1, he2, he3] at hx
      simp only [List.append_nil, List.mem_append] at hx
      rcases hx with hx | hx | hx
      · exact Or.inl (hdig1 x hx)
      · exact Or.inl (hdig2 x hx)
      · exact hdig3 x hx
    · rw [if_neg hc] at h
      exact Except.noConfusion h

/-- C8 amended: every canonical YYYYMMDD string denoting a real calendar date
round-trips through `get_date`; any failure of `get_date` is a FormatError;
and every accepted string consists of digits — except that a space may stand
where the day field's leading zero would be, since CPython's %d pattern also
matches ` [1-9]` — with its month and day in valid calendar range. So input
with other non-numeric characters, invalid months or days, and trailing
characters all fail with FormatError, while wrong-length all-numeric strings
(1-digit month or day fields) and space-padded days such as "202001 1" are
accepted: see the counterexample. -/
theorem c8_amended :
    (∀ y mo dy, 1 ≤ y → y ≤ 9999 → 1 ≤ mo → mo ≤ 12 → 1 ≤ dy →
      dy ≤ daysInMonth y mo → get_date (fmtYMD y mo dy) = .ok ⟨y, mo, dy⟩) ∧
    (∀ s, (∃ dt, get_date s = .ok dt) ∨ get_date s = .error (.formatError s)) ∧
    (∀ s dt, get_date s = .ok dt →
      (∀ c ∈ s.data, c.isDigit ∨ c = ' ') ∧ 1 ≤ dt.year ∧ dt.year ≤ 9999 ∧
        1 ≤ dt.month ∧ dt.month ≤ 12 ∧ 1 ≤ dt.day ∧
        dt.day ≤ daysInMonth dt.year dt.month) ∧
    get_date "202001 1" = .ok ⟨2020, 1, 1⟩ :=
  ⟨get_date_roundtrip, get_date_error, fun _ _ h => get_date_ok_shape h, rfl⟩

/-- Witness for C8 (amended): the leap day 2024-02-29 round-trips. -/
theorem c8_witness : get_date (fmtYMD 2024 2 29) = .ok ⟨2024, 2, 29⟩ :=
  c8_amended.1 2024 2 29 (by decide) (by decide) (by decide) (by decide) (by decide)
    (by decide)

end Vplot
